import Mathlib

/-!
The otmap caustic design tool: geometric-optics refinement loop.

Shallow embedding of `src/apps/caustic_design.cpp`.

Number model.

The file carries two embeddings of a C++ `double`.

Exact embedding.  A `double` is idealised as `Dbl K`: either a finite value
of an ordered field `K` (exact arithmetic, no rounding, no overflow) or the
single non-finite value `nan`.  Every arithmetic operation propagates `nan`, a
division by zero yields `nan`, and every comparison with `nan` is false.
The infinities of IEEE arithmetic are folded into `nan`: the only divisions
in the embedded code divide the components of a vector by its Euclidean
length, and a zero length forces zero numerators, i.e. `0/0`.

The library functions `std::sqrt`, `std::cos`, `std::sin` are parameters of
the definitions that call them; the theorems instantiate them with
`Real.sqrt`, `Real.cos`, `Real.sin` over `K = ℝ`.

Binary64 embedding.  In the namespace `Binary64` a `double` is a value of
`Binary64.F64`: a rational number that binary64 represents, an infinity or a
NaN.  Every operation rounds the exact result to nearest, ties to even, with
53 significant bits, gradual underflow below `2 ^ (-1022)` and overflow to an
infinity from `2 ^ 1024` on; `std::sqrt` is correctly rounded.  The two zeros
are not told apart.  The functions of the source whose computed values are the
subject of a statement are embedded a second time over `Binary64.F64`, with
the same names and the same order of operations.  This embedding is
computable, and runs of the code on concrete inputs are evaluated in it.

Universal statements about computed values are theorems of the exact
embedding.  Those named `*_exact` state what holds without rounding.  The
others bound their inputs away from underflow, overflow and cancellation
(`InRange`, `Conditioned`, bounds by powers of two) and conclude within a
tolerance; the bounds are not needed by the exact proof, they keep the
statement inside the range where the rounding of binary64, which the exact
embedding does not model, stays below the tolerance.  Runs on which binary64
departs from the exact result are recorded as theorems of the binary64
embedding.

A `std::vector<double>` holding a 3D point or direction is a `Vec3`; a
`std::vector<std::vector<double>>` of points is a `List (Vec3 K)`.

Collaborators.

Code that the file calls but does not contain (the command-line parser, the
density loader, the transport solver, the inverse map evaluation, the normal
integration) enters the definitions as parameters.  The first part of `main`
and its refinement loop are embedded separately; each returns, next to its
result, the calls of collaborators it makes, in execution order.
-/

set_option linter.unusedSectionVars false

namespace Otmap

/-! ## Doubles -/

/-- An idealised `double`: a finite value or the non-finite value `nan`. -/
inductive Dbl (K : Type) where
  | fin : K → Dbl K
  | nan : Dbl K

namespace Dbl

variable {K : Type} [LinearOrderedField K]

/-- Addition of doubles, `a + b`. -/
def add : Dbl K → Dbl K → Dbl K
  | fin a, fin b => fin (a + b)
  | _, _ => nan

/-- Subtraction of doubles, `a - b`. -/
def sub : Dbl K → Dbl K → Dbl K
  | fin a, fin b => fin (a - b)
  | _, _ => nan

/-- Multiplication of doubles, `a * b`. -/
def mul : Dbl K → Dbl K → Dbl K
  | fin a, fin b => fin (a * b)
  | _, _ => nan

/-- Division of doubles, `a / b`: non-finite when the divisor is zero. -/
def div : Dbl K → Dbl K → Dbl K
  | fin a, fin b => if b = 0 then nan else fin (a / b)
  | _, _ => nan

/-- Unary minus. -/
def neg : Dbl K → Dbl K
  | fin a => fin (-a)
  | nan => nan

/-- The comparison `a < b`; false as soon as one side is `nan`. -/
def lt : Dbl K → Dbl K → Bool
  | fin a, fin b => decide (a < b)
  | _, _ => false

/-- The call `std::sqrt(a)` for a library square root `f`: `nan` on a
negative argument. -/
def sqrt (f : K → K) : Dbl K → Dbl K
  | fin a => if a < 0 then nan else fin (f a)
  | nan => nan

/-- The call `f(a)` of a total library function such as `std::cos`. -/
def app (f : K → K) : Dbl K → Dbl K
  | fin a => fin (f a)
  | nan => nan

instance : Add (Dbl K) := ⟨add⟩
instance : Sub (Dbl K) := ⟨sub⟩
instance : Mul (Dbl K) := ⟨mul⟩
instance : Div (Dbl K) := ⟨div⟩
instance : Neg (Dbl K) := ⟨neg⟩

end Dbl

open Dbl (fin nan)

/-! ## Vectors -/

/-- A `std::vector<double>` with three components `[0]`, `[1]`, `[2]`. -/
structure Vec3 (K : Type) where
  x : Dbl K
  y : Dbl K
  z : Dbl K

/-- Three rows of a 3x3 matrix, `m[0]`, `m[1]`, `m[2]`. -/
structure Mat3 (K : Type) where
  r0 : Vec3 K
  r1 : Vec3 K
  r2 : Vec3 K

variable {K : Type} [LinearOrderedField K]

/-- The point whose three coordinates are the finite values `a`, `b`, `c`. -/
def Vec3.ofFin (a b c : K) : Vec3 K := ⟨fin a, fin b, fin c⟩

/-- The vector whose three components are `nan`. -/
def Vec3.nanVec : Vec3 K := ⟨nan, nan, nan⟩

/-- The point with the finite coordinates of a triple. -/
def finPoint (p : K × K × K) : Vec3 K := Vec3.ofFin p.1 p.2.1 p.2.2

/-- Source `normalize_vec` (lines 163-177), at `p1.size() == 3` as at every
call site: accumulate the squared length from 0, take its square root, divide
each component by it.  There is no guard on `len`. -/
def normalize_vec (sqrt : K → K) (p1 : Vec3 K) : Vec3 K :=
  let squared_len : Dbl K := fin 0
  let squared_len := squared_len + p1.x * p1.x
  let squared_len := squared_len + p1.y * p1.y
  let squared_len := squared_len + p1.z * p1.z
  let len := Dbl.sqrt sqrt squared_len
  ⟨p1.x / len, p1.y / len, p1.z / len⟩

/-- Source `cross` (lines 421-427). -/
def cross (v1 v2 : Vec3 K) : Vec3 K :=
  ⟨v1.y * v2.z - v1.z * v2.y, v1.z * v2.x - v1.x * v2.z, v1.x * v2.y - v1.y * v2.x⟩

/-- Source `dot` (lines 429-431). -/
def dot (a b : Vec3 K) : Dbl K := a.x * b.x + a.y * b.y + a.z * b.z

/-- Source `mult` (lines 433-435). -/
def mult (a : Dbl K) (b : Vec3 K) : Vec3 K := ⟨a * b.x, a * b.y, a * b.z⟩

/-- Source `add` (lines 437-439). -/
def add (a b : Vec3 K) : Vec3 K := ⟨a.x + b.x, a.y + b.y, a.z + b.z⟩

/-- Source `sub` (lines 441-443). -/
def sub (a b : Vec3 K) : Vec3 K := ⟨a.x - b.x, a.y - b.y, a.z - b.z⟩

/-- Source `magnitude` (lines 445-447). -/
def magnitude (sqrt : K → K) (a : Vec3 K) : Dbl K :=
  Dbl.sqrt sqrt (a.x * a.x + a.y * a.y + a.z * a.z)

/-! ## Fresnel normal field -/

/-- Local flag of `fresnelMapping` (line 579). -/
def use_point_src : Bool := false

/-- Local flag of `fresnelMapping` (line 580). -/
def use_reflective_caustics : Bool := false

/-- Local `pointLightPosition` of `fresnelMapping` (lines 582-585). -/
def pointLightPosition : Vec3 K := ⟨fin 0.5, fin 0.5, fin 0.5⟩

/-- One pass of the loop body of `fresnelMapping` (lines 621-652) for the
sample `vertex = vertices[i]` and its target `target = target_pts[i]`. -/
def fresnelNormal (sqrt : K → K) (vertex target : Vec3 K) (refractive_index : Dbl K) :
    Vec3 K :=
  let transmitted : Vec3 K :=
    ⟨target.x - vertex.x, target.y - vertex.y, target.z - vertex.z⟩
  let incidentLight : Vec3 K :=
    if use_point_src then
      ⟨vertex.x - (pointLightPosition : Vec3 K).x,
       vertex.y - (pointLightPosition : Vec3 K).y,
       vertex.z - (pointLightPosition : Vec3 K).z⟩
    else
      ⟨fin 0, fin 0, fin (-1)⟩
  let transmitted := normalize_vec sqrt transmitted
  let incidentLight := normalize_vec sqrt incidentLight
  let normal : Vec3 K :=
    if use_reflective_caustics then
      ⟨(transmitted.x + incidentLight.x) * fin 1,
       (transmitted.y + incidentLight.y) * fin 1,
       (transmitted.z + incidentLight.z) * fin 1⟩
    else
      ⟨(transmitted.x - incidentLight.x * refractive_index) * fin (-1),
       (transmitted.y - incidentLight.y * refractive_index) * fin (-1),
       (transmitted.z - incidentLight.z * refractive_index) * fin (-1)⟩
  normalize_vec sqrt normal

/-- Source `fresnelMapping` (lines 568-658): the loop runs over the samples in
index order, reads `vertices[i]` and `target_pts[i]` and pushes one normal per
sample.  The result is `none` exactly when `target_pts` is shorter than
`vertices`, where the C++ indexes `target_pts` out of range; the function has
no other abnormal exit (it contains no `throw` and no check). -/
def fresnelMapping (sqrt : K → K) :
    List (Vec3 K) → List (Vec3 K) → Dbl K → Option (List (Vec3 K))
  | [], _, _ => some []
  | _ :: _, [], _ => none
  | v :: vertices, t :: target_pts, refractive_index =>
    match fresnelMapping sqrt vertices target_pts refractive_index with
    | none => none
    | some desiredNormals => some (fresnelNormal sqrt v t refractive_index :: desiredNormals)

/-! ## Optical frame transform -/

/-- Source `translatePoints` (lines 302-309). -/
def translatePoints (trg_pts : List (Vec3 K)) (position_xyz : Vec3 K) : List (Vec3 K) :=
  trg_pts.map fun p =>
    ⟨p.x + position_xyz.x, p.y + position_xyz.y, p.z + position_xyz.z⟩

/-- The local constant `PI` of `rotatePoints` (line 313). -/
def PI : Dbl K := fin 3.14159265358979323846

/-- Source `rotatePoints` (lines 312-377) for library functions `cos`, `sin`:
degrees to radians, the three rotation matrices, then for each point the
rotation about x, about y and about z, in this order. -/
def rotatePoints (cos sin : K → K) (trg_pts : List (Vec3 K)) (angle_xyz : Vec3 K) :
    List (Vec3 K) :=
  let angle_xyz : Vec3 K :=
    ⟨angle_xyz.x * PI / fin 180, angle_xyz.y * PI / fin 180, angle_xyz.z * PI / fin 180⟩
  let cos_x := Dbl.app cos angle_xyz.x
  let sin_x := Dbl.app sin angle_xyz.x
  let cos_y := Dbl.app cos angle_xyz.y
  let sin_y := Dbl.app sin angle_xyz.y
  let cos_z := Dbl.app cos angle_xyz.z
  let sin_z := Dbl.app sin angle_xyz.z
  let rot_x : Mat3 K :=
    ⟨⟨fin 1, fin 0, fin 0⟩, ⟨fin 0, cos_x, -sin_x⟩, ⟨fin 0, sin_x, cos_x⟩⟩
  let rot_y : Mat3 K :=
    ⟨⟨cos_y, fin 0, sin_y⟩, ⟨fin 0, fin 1, fin 0⟩, ⟨-sin_y, fin 0, cos_y⟩⟩
  let rot_z : Mat3 K :=
    ⟨⟨cos_z, -sin_z, fin 0⟩, ⟨sin_z, cos_z, fin 0⟩, ⟨fin 0, fin 0, fin 1⟩⟩
  trg_pts.map fun point =>
    let x := point.x
    let y := point.y
    let z := point.z
    -- rotate around the x axis
    let new_y := rot_x.r1.y * y + rot_x.r1.z * z
    let new_z := rot_x.r2.y * y + rot_x.r2.z * z
    let y := new_y
    let z := new_z
    -- rotate around the y axis
    let new_x := rot_y.r0.x * x + rot_y.r0.z * z
    let new_z := rot_y.r2.x * x + rot_y.r2.z * z
    let x := new_x
    let z := new_z
    -- rotate around the z axis
    let new_x := rot_z.r0.x * x + rot_z.r0.y * y
    let new_y := rot_z.r1.x * x + rot_z.r1.y * y
    let x := new_x
    let y := new_y
    ⟨x, y, z⟩

/-- Target construction in `main` (lines 719-732): each corresponded 2D
position is lifted to a 3D point with third coordinate 0 (one point per mesh
vertex, in index order), then `rotatePoints(trg_pts, {0, 0, 0})` and
`translatePoints(trg_pts, {0, 0, -opts.focal_l})`. -/
def buildTargets (cos sin : K → K) (vertex_positions : List (Dbl K × Dbl K))
    (focal_l : Dbl K) : List (Vec3 K) :=
  let trg_pts : List (Vec3 K) := vertex_positions.map fun p => ⟨p.1, p.2, fin 0⟩
  let trg_pts := rotatePoints cos sin trg_pts ⟨fin 0, fin 0, fin 0⟩
  translatePoints trg_pts ⟨fin 0, fin 0, -focal_l⟩

/-! ## Re-anchoring step of the refinement loop -/

/-- First loop of a round of `main` (lines 740-746): `max_z` starts at
`-10000` and is replaced by every larger `z`. -/
def reanchorMax (source_points : List (Vec3 K)) : Dbl K :=
  source_points.foldl (fun max_z p => if Dbl.lt max_z p.z then p.z else max_z) (fin (-10000))

/-- Re-anchoring step of a round of `main` (lines 740-750): compute `max_z`,
then subtract it from the `z` of every sample. -/
def reanchor (source_points : List (Vec3 K)) : List (Vec3 K) :=
  let max_z := reanchorMax source_points
  source_points.map fun p => ⟨p.x, p.y, p.z - max_z⟩

/-! ## Rotation matrices of the specification -/

/-- Spec: the standard right-handed rotation matrix about the x axis. -/
def specRx (c s : K → K) (t : K) : Matrix (Fin 3) (Fin 3) K :=
  !![1, 0, 0; 0, c t, -s t; 0, s t, c t]

/-- Spec: the standard right-handed rotation matrix about the y axis. -/
def specRy (c s : K → K) (t : K) : Matrix (Fin 3) (Fin 3) K :=
  !![c t, 0, s t; 0, 1, 0; -s t, 0, c t]

/-- Spec: the standard right-handed rotation matrix about the z axis. -/
def specRz (c s : K → K) (t : K) : Matrix (Fin 3) (Fin 3) K :=
  !![c t, -s t, 0; s t, c t, 0; 0, 0, 1]

/-- Spec: the rotation of section 4.2 applied to the point `(p.1, p.2.1, p.2.2)`:
`Rz(tz) * Ry(ty) * Rx(tx) * p` with `t = angle * PI / 180`. -/
def specRotate (c s : K → K) (ax ay az : K) (p : K × K × K) : K × K × K :=
  let tx := ax * 3.14159265358979323846 / 180
  let ty := ay * 3.14159265358979323846 / 180
  let tz := az * 3.14159265358979323846 / 180
  let q := Matrix.mulVec (specRz c s tz * specRy c s ty * specRx c s tx) ![p.1, p.2.1, p.2.2]
  (q 0, q 1, q 2)

/-! ## Refraction -/

/-- Source `refract` (lines 470-506).  The two vectors are lists of components;
the result is `none` where the C++ throws `std::invalid_argument` (one of the
vectors does not have exactly three components).  There is no check for total
internal reflection: `cosThetaT` is the square root of `1.0 - sin2ThetaT`
whatever its sign. -/
def refract (sqrt : K → K) (surfaceNormal rayDirection : List (Dbl K)) (n1 n2 : Dbl K) :
    Option (List (Dbl K)) :=
  match surfaceNormal, rayDirection with
  | [s0, s1, s2], [r0, r1, r2] =>
    let nRatio := n1 / n2
    let dotProduct := s0 * r0 + s1 * r1 + s2 * r2
    let cosThetaI := -dotProduct
    let sin2ThetaT := nRatio * nRatio * (fin 1 - cosThetaI * cosThetaI)
    let cosThetaT := Dbl.sqrt sqrt (fin 1 - sin2ThetaT)
    some [nRatio * r0 + (nRatio * cosThetaI - cosThetaT) * s0,
          nRatio * r1 + (nRatio * cosThetaI - cosThetaT) * s1,
          nRatio * r2 + (nRatio * cosThetaI - cosThetaT) * s2]
  | _, _ => none

/-! ## Density normalisation before the transport solve -/

/-- An Eigen `MatrixXd`: its dimensions and its coefficients in storage
order. -/
structure MatrixXd (K : Type) where
  rows : Nat
  cols : Nat
  coeffs : List (Dbl K)

/-- The Eigen call `density.maxCoeff()`: the visitor starts from the first
coefficient and replaces the running value by every coefficient that compares
greater.  It is `none` on a matrix without coefficients, where Eigen asserts. -/
def MatrixXd.maxCoeff (m : MatrixXd K) : Option (Dbl K) :=
  match m.coeffs with
  | [] => none
  | c :: cs => some (cs.foldl (fun res value => if Dbl.lt res value then value else res) c)

/-- Source `runOptimalTransport` (lines 379-404) for a transport solver
`solve`, called with the resolution `density.rows()` of `otsolver.init` and the
coefficient vector `vec(density)` of `otsolver.solve`: the density is divided
by its maximum when this exceeds 1 (lines 386-387), then handed to the solver.
The result is the transport map and the density as the caller sees it
afterwards (it is passed by reference).  Printing and timing are left out. -/
def runOptimalTransport {T : Type} (solve : Nat → List (Dbl K) → T) (density : MatrixXd K) :
    Option (T × MatrixXd K) :=
  match density.maxCoeff with
  | none => none
  | some maxCoeff =>
    let density : MatrixXd K :=
      if Dbl.lt (fin 1) maxCoeff then
        ⟨density.rows, density.cols, density.coeffs.map fun c => c / maxCoeff⟩
      else density
    some (solve density.rows density.coeffs, density)

/-! ## Correspondence composer -/

/-- A `Surface_mesh`: its vertex positions `points()` and its connectivity. -/
structure Surface_mesh (P C : Type) where
  points : List P
  connectivity : C

/-- A `TransportMap`, built by `TransportMap(origin_mesh, fwd_mesh, density)`. -/
structure TransportMap (P C D : Type) where
  origin_mesh : Surface_mesh P C
  fwd_mesh : Surface_mesh P C
  density : D

/-- Source `applyTransportMapping` (lines 406-419).  The collaborator
`apply_inverse_map`, which is not part of the file, is a parameter, once for
mesh points (`apply_inverse_map_mesh`) and once for the 2D positions
(`apply_inverse_map`); the result is the array `vertex_positions` after the
call. -/
def applyTransportMapping {P Q C D : Type}
    (apply_inverse_map_mesh : TransportMap P C D → List P → Nat → List P)
    (apply_inverse_map : TransportMap P C D → List Q → Nat → List Q)
    (tmap_src tmap_trg : TransportMap P C D) (density_trg : D)
    (vertex_positions : List Q) : List Q :=
  let map_uv := tmap_src.fwd_mesh
  let map_orig := tmap_src.origin_mesh
  let map_uv : Surface_mesh P C :=
    ⟨apply_inverse_map_mesh tmap_trg map_uv.points 3, map_uv.connectivity⟩
  let transport : TransportMap P C D := ⟨map_uv, map_orig, density_trg⟩
  apply_inverse_map transport vertex_positions 3

/-! ## Refinement loop -/

/-- The arguments of one call `perform_normal_integration(mesh, normals)`:
the sample positions of the mesh at the call and the normals. -/
structure IntegrationCall (K : Type) where
  source_points : List (Vec3 K)
  normals : List (Vec3 K)

/-- One round of the loop of `main` (lines 740-755): re-anchoring,
`fresnelMapping` on the re-anchored samples, one call of the integration
collaborator `perform_normal_integration`, which is a parameter and returns
the sample positions it leaves in the mesh.  The second component records the
arguments of the integration call. -/
def refinementRound (sqrt : K → K)
    (perform_normal_integration : List (Vec3 K) → List (Vec3 K) → List (Vec3 K))
    (trg_pts : List (Vec3 K)) (r : Dbl K) (source_points : List (Vec3 K)) :
    Option (List (Vec3 K) × IntegrationCall K) :=
  let source_points := reanchor source_points
  match fresnelMapping sqrt source_points trg_pts r with
  | none => none
  | some normals =>
    some (perform_normal_integration source_points normals, ⟨source_points, normals⟩)

/-- The rounds `for (int i = ...; i < 10; i++)` of `main` with `rounds`
iterations left (line 738): the samples after the last round and, in call
order, the integration calls made. -/
def refinementRounds (sqrt : K → K)
    (perform_normal_integration : List (Vec3 K) → List (Vec3 K) → List (Vec3 K))
    (trg_pts : List (Vec3 K)) (r : Dbl K) :
    Nat → List (Vec3 K) → Option (List (Vec3 K) × List (IntegrationCall K))
  | 0, source_points => some (source_points, [])
  | rounds + 1, source_points =>
    match refinementRound sqrt perform_normal_integration trg_pts r source_points with
    | none => none
    | some (source_points, call) =>
      match refinementRounds sqrt perform_normal_integration trg_pts r rounds source_points with
      | none => none
      | some (final, calls) => some (final, call :: calls)

/-- The refinement loop of `main` (lines 734-806) with `r = 1.55` and 10
rounds: the samples handed to `save_solid_obj_source` after the loop, and the
integration calls made. -/
def refinementLoop (sqrt : K → K)
    (perform_normal_integration : List (Vec3 K) → List (Vec3 K) → List (Vec3 K))
    (trg_pts source_points : List (Vec3 K)) :
    Option (List (Vec3 K) × List (IntegrationCall K)) :=
  refinementRounds sqrt perform_normal_integration trg_pts (fin 1.55) 10 source_points

/-- Spec: the round function of section 4.4 on the Surface Sample Set:
re-anchor, recompute the Normal Field on the re-anchored surface with the
Target Point Set and the refractive index, integrate. -/
def specRound (sqrt : K → K)
    (perform_normal_integration : List (Vec3 K) → List (Vec3 K) → List (Vec3 K))
    (trg_pts : List (Vec3 K)) (r : Dbl K) (source_points : List (Vec3 K)) : List (Vec3 K) :=
  perform_normal_integration (reanchor source_points)
    ((fresnelMapping sqrt (reanchor source_points) trg_pts r).getD [])

/-! ## Command line and start of `main` -/

/-- The `InputParser` of the command line, which is not part of the file, by
the results of its two queries: `getCmdOption(option, value)` returns false
(`none`) or returns true and fills `value` (`some value`);
`cmdOptionExists(option)` returns a boolean. -/
structure InputParser where
  getCmdOption : String → Option (List String)
  cmdOptionExists : String → Bool

/-- The fields of `CLIopts` (lines 53-68) that `set_default` initialises; the
fields inherited from `CLI_OTSolverOptions` belong to code outside the file. -/
structure CLIopts (K : Type) where
  filename_src : String
  filename_trg : String
  ores : List Int
  pt_scale : Dbl K
  pattern : String
  export_maps : Bool
  resolution : Nat
  out_prefix : String
  focal_l : Dbl K

/-- Source `CLIopts::set_default` (lines 70-89). -/
def CLIopts.set_default : CLIopts K :=
  { filename_src := "", filename_trg := "", ores := [1], pt_scale := fin 1, pattern := "",
    export_maps := false, resolution := 100, out_prefix := "", focal_l := fin 1 }

/-- Source `CLIopts::load` (lines 91-127) for the library function `atof` and
the conversion `toUint` of a `double` to `uint`: the returned boolean and the
options as they are left.  The result is `none` where the C++ reads `value[0]`
of an empty vector. -/
def CLIopts.load (atof : String → Dbl K) (toUint : Dbl K → Nat) (args : InputParser) :
    Option (Bool × CLIopts K) :=
  let opts : CLIopts K := CLIopts.set_default
  match args.getCmdOption "-in_src" with
  | none => some (false, opts)
  | some value =>
  match value.head? with
  | none => none
  | some v0 =>
  let opts := { opts with filename_src := v0 }
  match args.getCmdOption "-in_trg" with
  | none => some (false, opts)
  | some value =>
  match value.head? with
  | none => none
  | some v0 =>
  let opts := { opts with filename_trg := v0 }
  let res : Option (CLIopts K) :=
    match args.getCmdOption "-res" with
    | none => some opts
    | some value => value.head?.map fun v0 => { opts with resolution := toUint (atof v0) }
  match res with
  | none => none
  | some opts =>
  let res : Option (CLIopts K) :=
    match args.getCmdOption "-ptscale" with
    | none => some opts
    | some value => value.head?.map fun v0 => { opts with pt_scale := atof v0 }
  match res with
  | none => none
  | some opts =>
  let opts := if args.cmdOptionExists "-export_maps" then { opts with export_maps := true } else opts
  let res : Option (CLIopts K) :=
    match args.getCmdOption "-focal_l" with
    | none => some opts
    | some value => value.head?.map fun v0 => { opts with focal_l := atof v0 }
  match res with
  | none => none
  | some opts => some (true, opts)

/-- The value of `EXIT_FAILURE`. -/
def EXIT_FAILURE : Nat := 1

/-- What `main` does with its collaborators, in execution order. -/
inductive Event (K : Type) where
  | output_usage : Event K
  | opts_load (result : Bool) : Event K
  | load_input_density (filename : String) (loaded : Bool) : Event K
  | runOptimalTransport (density : MatrixXd K) : Event K

/-- How the first part of `main` ends. -/
inductive Outcome where
  | exited (status : Nat) : Outcome
  | proceeds : Outcome
  | undefined : Outcome

/-- Source `main`, lines 660-697, for the collaborator `load_input_density`
(`none`: it returns false; `some d`: it returns true and fills the matrix with
`d`): the help options, `opts.load`, the two densities, the two transport
solves.  `Outcome.exited status` is `return status` or `exit(status)`,
`Outcome.proceeds` means that control reaches the mesh construction of line
700, `Outcome.undefined` that `opts.load` read `value[0]` of an empty vector. -/
def mainStartup (atof : String → Dbl K) (toUint : Dbl K → Nat)
    (load_input_density : String → Option (MatrixXd K)) (input : InputParser) :
    Outcome × List (Event K) :=
  if input.cmdOptionExists "-help" || input.cmdOptionExists "-h" then
    (Outcome.exited 0, [Event.output_usage])
  else
    match CLIopts.load atof toUint input with
    | none => (Outcome.undefined, [])
    | some (false, _) => (Outcome.exited EXIT_FAILURE, [Event.opts_load false, Event.output_usage])
    | some (true, opts) =>
      match load_input_density opts.filename_src with
      | none =>
        (Outcome.exited EXIT_FAILURE,
          [Event.opts_load true, Event.load_input_density opts.filename_src false])
      | some density_src =>
        match load_input_density opts.filename_trg with
        | none =>
          (Outcome.exited EXIT_FAILURE,
            [Event.opts_load true, Event.load_input_density opts.filename_src true,
              Event.load_input_density opts.filename_trg false])
        | some density_trg =>
          (Outcome.proceeds,
            [Event.opts_load true, Event.load_input_density opts.filename_src true,
              Event.load_input_density opts.filename_trg true,
              Event.runOptimalTransport density_src, Event.runOptimalTransport density_trg])

/-! ## Margin inset of the sampling grid -/

/-- Source `scaleAndTranslatePoints` (lines 193-207): the first two
coordinates of every point are scaled by `(MAX - 2 * margin) / MAX` and then
moved by `margin`; the third coordinate is not touched. -/
def scaleAndTranslatePoints (points : List (Vec3 K)) (MAX_X MAX_Y margin : Dbl K) :
    List (Vec3 K) :=
  let scaleFactorX := (MAX_X - fin 2 * margin) / MAX_X
  let scaleFactorY := (MAX_Y - fin 2 * margin) / MAX_Y
  points.map fun point =>
    let x := point.x
    let y := point.y
    let x := x * scaleFactorX
    let y := y * scaleFactorY
    let x := x + margin
    let y := y + margin
    ⟨x, y, point.z⟩

/-! ## Degenerate geometry -/

/-- A sample `v`, its target `t` and a refractive index `n` for which the
normal is undefined: the two points coincide (zero transmitted vector), or the
target lies on the optical axis through the sample, below it with `n = 1` or
above it with `n = -1` (then `n * incident - transmitted` is the zero
vector). -/
def Degenerate (n : K) (v t : K × K × K) : Prop :=
  t = v ∨ (t.1 = v.1 ∧ t.2.1 = v.2.1 ∧
    ((n = 1 ∧ t.2.2 < v.2.2) ∨ (n = -1 ∧ v.2.2 < t.2.2)))

/-! ## Inputs away from underflow and overflow -/

/-- A sample `v` and its target `t` whose squared distance neither underflows
nor overflows in binary64: they differ by at least `2 ^ (-500)` in some
coordinate and by at most `2 ^ 500` in every coordinate. -/
def InRange (v t : K × K × K) : Prop :=
  ((1 / 2) ^ 500 ≤ |t.1 - v.1| ∨ (1 / 2) ^ 500 ≤ |t.2.1 - v.2.1| ∨
    (1 / 2) ^ 500 ≤ |t.2.2 - v.2.2|) ∧
  |t.1 - v.1| ≤ 2 ^ 500 ∧ |t.2.1 - v.2.1| ≤ 2 ^ 500 ∧ |t.2.2 - v.2.2| ≤ 2 ^ 500

/-- A sample `v`, its target `t` and a refractive index `n` for which the
normal is well conditioned: the pair is in range, `|n| ≤ 2 ^ 500`, and either
`|n|` differs from 1 by at least `2 ^ (-20)` or the target is off the vertical
through the sample, in x or in y, by at least `2 ^ (-20)` of the sum of the
three coordinate distances. -/
def Conditioned (n : K) (v t : K × K × K) : Prop :=
  InRange v t ∧ |n| ≤ 2 ^ 500 ∧
  ((1 / 2) ^ 20 ≤ |(|n| - 1)| ∨
   (1 / 2) ^ 20 * (|t.1 - v.1| + |t.2.1 - v.2.1| + |t.2.2 - v.2.2|) ≤ |t.1 - v.1| ∨
   (1 / 2) ^ 20 * (|t.1 - v.1| + |t.2.1 - v.2.1| + |t.2.2 - v.2.2|) ≤ |t.2.1 - v.2.1|)

/-! ## Binary64 arithmetic -/

namespace Binary64

/-- The power `2 ^ c` of an integer exponent, as a rational. -/
def pow2 (c : ℤ) : ℚ :=
  if 0 ≤ c then ((2 ^ c.toNat : ℕ) : ℚ) else 1 / ((2 ^ (-c).toNat : ℕ) : ℚ)

/-- The largest `k` below `2 ^ b` with `2 ^ (r + k) ≤ n`, added to `r`: one bit
of the exponent at a time, from bit `b - 1` down. -/
def log2Aux (n : ℕ) : ℕ → ℕ → ℕ
  | 0, r => r
  | b + 1, r => if 2 ^ (r + 2 ^ b) ≤ n then log2Aux n b (r + 2 ^ b) else log2Aux n b r

/-- The binary exponent of a natural number `1 ≤ n < 2 ^ 4096`: the `k` with
`2 ^ k ≤ n < 2 ^ (k + 1)`.  The bound covers the numerator and the denominator
of every sum, product and quotient of two binary64 values. -/
def natLog2 (n : ℕ) : ℕ := log2Aux n 12 0

/-- The binary exponent of a non-zero rational `q`: the integer `e` with
`2 ^ e ≤ |q| < 2 ^ (e + 1)`. -/
def ilog2 (q : ℚ) : ℤ :=
  let c : ℤ := (natLog2 q.num.natAbs : ℤ) - (natLog2 q.den : ℤ)
  if pow2 c ≤ |q| then c else c - 1

/-- The integer nearest to `t`, a tie going to the even neighbour. -/
def roundHalfEven (t : ℚ) : ℤ :=
  let f := ⌊t⌋
  let r := t - f
  if r < 1 / 2 then f else if 1 / 2 < r then f + 1 else if f % 2 = 0 then f else f + 1

/-- The integer square root of `n` below `2 ^ b`, one bit at a time from bit
`b - 1` down, on top of the bits already set in `r`. -/
def isqrtAux (n : ℕ) : ℕ → ℕ → ℕ
  | 0, r => r
  | b + 1, r =>
    if (r + 2 ^ b) * (r + 2 ^ b) ≤ n then isqrtAux n b (r + 2 ^ b) else isqrtAux n b r

/-- A C++ `double` in IEEE 754 binary64: a finite value (a rational number; the
two zeros are not told apart), one of the two infinities, or a NaN. -/
inductive F64 where
  | fin (x : ℚ)
  | pinf
  | ninf
  | nan
  deriving DecidableEq

/-- The binary64 value of the real number `q` under round-to-nearest, ties to
even: 53 significant bits, gradual underflow below `2 ^ (-1022)`, overflow to
an infinity when the rounded magnitude reaches `2 ^ 1024`. -/
def roundNearestEven (q : ℚ) : F64 :=
  if q = 0 then F64.fin 0 else
    let e := max (ilog2 q) (-1022)
    let ulp := pow2 (e - 52)
    let r := (roundHalfEven (q / ulp) : ℚ) * ulp
    if pow2 1024 ≤ |r| then (if 0 < q then F64.pinf else F64.ninf) else F64.fin r

namespace F64

/-- Binary64 addition. -/
def add : F64 → F64 → F64
  | fin a, fin b => roundNearestEven (a + b)
  | nan, _ => nan
  | _, nan => nan
  | pinf, ninf => nan
  | ninf, pinf => nan
  | pinf, _ => pinf
  | _, pinf => pinf
  | ninf, _ => ninf
  | _, ninf => ninf

/-- Binary64 negation. -/
def neg : F64 → F64
  | fin a => fin (-a)
  | pinf => ninf
  | ninf => pinf
  | nan => nan

/-- Binary64 subtraction. -/
def sub (a b : F64) : F64 := add a (neg b)

/-- The infinity with the sign of `s`, for `s ≠ 0`. -/
def infOfSign (s : ℚ) : F64 := if 0 < s then pinf else ninf

/-- Binary64 multiplication. -/
def mul : F64 → F64 → F64
  | fin a, fin b => roundNearestEven (a * b)
  | nan, _ => nan
  | _, nan => nan
  | fin a, pinf => if a = 0 then nan else infOfSign a
  | fin a, ninf => if a = 0 then nan else infOfSign (-a)
  | pinf, fin b => if b = 0 then nan else infOfSign b
  | ninf, fin b => if b = 0 then nan else infOfSign (-b)
  | pinf, pinf => pinf
  | ninf, ninf => pinf
  | pinf, ninf => ninf
  | ninf, pinf => ninf

/-- Binary64 division.  A zero divisor counts as `+0`: the zero divisors of the
embedded code are square roots of a sum that starts from the literal `0`. -/
def div : F64 → F64 → F64
  | fin a, fin b =>
    if b = 0 then (if a = 0 then nan else infOfSign a) else roundNearestEven (a / b)
  | nan, _ => nan
  | _, nan => nan
  | fin _, pinf => fin 0
  | fin _, ninf => fin 0
  | pinf, fin b => if 0 ≤ b then pinf else ninf
  | ninf, fin b => if 0 ≤ b then ninf else pinf
  | pinf, pinf => nan
  | pinf, ninf => nan
  | ninf, pinf => nan
  | ninf, ninf => nan

/-- Binary64 comparison `a < b`. -/
def lt : F64 → F64 → Bool
  | fin a, fin b => decide (a < b)
  | fin _, pinf => true
  | ninf, fin _ => true
  | ninf, pinf => true
  | _, _ => false

/-- Binary64 `std::sqrt`, correctly rounded.  The square root of a positive
binary64 value lies in the normal range and is never half-way between two
neighbouring binary64 values, so the 53-bit significand is the integer square
root of the scaled argument, plus one when the argument exceeds the square of
the midpoint. -/
def sqrt : F64 → F64
  | fin a =>
    if a < 0 then nan else if a = 0 then fin 0 else
      let h : ℤ := ilog2 a / 2
      let ulp := pow2 (h - 52)
      let t := a / (ulp * ulp)
      let f0 : ℕ := isqrtAux ⌊t⌋.toNat 54 0
      let m : ℕ := if t < ((f0 : ℚ) + 1 / 2) * ((f0 : ℚ) + 1 / 2) then f0 else f0 + 1
      fin ((m : ℚ) * ulp)
  | pinf => pinf
  | ninf => nan
  | nan => nan

instance : Add F64 := ⟨add⟩
instance : Sub F64 := ⟨sub⟩
instance : Mul F64 := ⟨mul⟩
instance : Div F64 := ⟨div⟩
instance : Neg F64 := ⟨neg⟩

end F64

/-- A `std::vector<double>` with three components, in binary64. -/
structure Vec3 where
  x : F64
  y : F64
  z : F64
  deriving DecidableEq

/-- The binary64 value of a decimal literal of the source. -/
def literal (q : ℚ) : F64 := roundNearestEven q

/-- Source `normalize_vec` (lines 163-177) in binary64, at `p1.size() == 3`. -/
def normalize_vec (p1 : Vec3) : Vec3 :=
  let squared_len : F64 := F64.fin 0
  let squared_len := squared_len + p1.x * p1.x
  let squared_len := squared_len + p1.y * p1.y
  let squared_len := squared_len + p1.z * p1.z
  let len := F64.sqrt squared_len
  ⟨p1.x / len, p1.y / len, p1.z / len⟩

/-- The vector `transmitted` of the loop body of `fresnelMapping` after its
normalisation (lines 623-637), in binary64. -/
def transmittedDirection (vertex target : Vec3) : Vec3 :=
  normalize_vec ⟨target.x - vertex.x, target.y - vertex.y, target.z - vertex.z⟩

/-- One pass of the loop body of `fresnelMapping` (lines 621-652) in binary64,
with both local flags false: the incident vector is `(0, 0, -1)` and the normal
is the refractive one.  The literal `-1.0f` is the binary64 value `-1`. -/
def fresnelNormal (vertex target : Vec3) (refractive_index : F64) : Vec3 :=
  let transmitted : Vec3 :=
    ⟨target.x - vertex.x, target.y - vertex.y, target.z - vertex.z⟩
  let incidentLight : Vec3 := ⟨F64.fin 0, F64.fin 0, F64.fin (-1)⟩
  let transmitted := normalize_vec transmitted
  let incidentLight := normalize_vec incidentLight
  let normal : Vec3 :=
    ⟨(transmitted.x - incidentLight.x * refractive_index) * F64.fin (-1),
     (transmitted.y - incidentLight.y * refractive_index) * F64.fin (-1),
     (transmitted.z - incidentLight.z * refractive_index) * F64.fin (-1)⟩
  normalize_vec normal

/-- Source `fresnelMapping` (lines 568-658) in binary64; `none` when
`target_pts` is shorter than `vertices`. -/
def fresnelMapping : List Vec3 → List Vec3 → F64 → Option (List Vec3)
  | [], _, _ => some []
  | _ :: _, [], _ => none
  | v :: vertices, t :: target_pts, refractive_index =>
    match fresnelMapping vertices target_pts refractive_index with
    | none => none
    | some desiredNormals => some (fresnelNormal v t refractive_index :: desiredNormals)

/-- Source `cross` (lines 421-427) in binary64. -/
def cross (v1 v2 : Vec3) : Vec3 :=
  ⟨v1.y * v2.z - v1.z * v2.y, v1.z * v2.x - v1.x * v2.z, v1.x * v2.y - v1.y * v2.x⟩

/-- Source `mult` (lines 433-435) in binary64. -/
def mult (a : F64) (b : Vec3) : Vec3 := ⟨a * b.x, a * b.y, a * b.z⟩

/-- Source `refract` (lines 470-506) in binary64; `none` where the C++ throws
`std::invalid_argument`. -/
def refract (surfaceNormal rayDirection : List F64) (n1 n2 : F64) : Option (List F64) :=
  match surfaceNormal, rayDirection with
  | [s0, s1, s2], [r0, r1, r2] =>
    let nRatio := n1 / n2
    let dotProduct := s0 * r0 + s1 * r1 + s2 * r2
    let cosThetaI := -dotProduct
    let sin2ThetaT := nRatio * nRatio * (F64.fin 1 - cosThetaI * cosThetaI)
    let cosThetaT := F64.sqrt (F64.fin 1 - sin2ThetaT)
    some [nRatio * r0 + (nRatio * cosThetaI - cosThetaT) * s0,
          nRatio * r1 + (nRatio * cosThetaI - cosThetaT) * s1,
          nRatio * r2 + (nRatio * cosThetaI - cosThetaT) * s2]
  | _, _ => none

/-- First loop of a round of `main` (lines 740-746) in binary64. -/
def reanchorMax (source_points : List Vec3) : F64 :=
  source_points.foldl (fun max_z p => if F64.lt max_z p.z then p.z else max_z)
    (F64.fin (-10000))

/-- Re-anchoring step of a round of `main` (lines 740-750) in binary64. -/
def reanchor (source_points : List Vec3) : List Vec3 :=
  let max_z := reanchorMax source_points
  source_points.map fun p => ⟨p.x, p.y, p.z - max_z⟩

/-- Source `scaleAndTranslatePoints` (lines 193-207) in binary64. -/
def scaleAndTranslatePoints (points : List Vec3) (MAX_X MAX_Y margin : F64) : List Vec3 :=
  let scaleFactorX := (MAX_X - F64.fin 2 * margin) / MAX_X
  let scaleFactorY := (MAX_Y - F64.fin 2 * margin) / MAX_Y
  points.map fun point =>
    let x := point.x
    let y := point.y
    let x := x * scaleFactorX
    let y := y * scaleFactorY
    let x := x + margin
    let y := y + margin
    ⟨x, y, point.z⟩

end Binary64

/-! ## Arithmetic of doubles -/

section DblLemmas

open Dbl

@[simp] theorem fin_add_fin (a b : K) : (fin a + fin b : Dbl K) = fin (a + b) := rfl
@[simp] theorem fin_sub_fin (a b : K) : (fin a - fin b : Dbl K) = fin (a - b) := rfl
@[simp] theorem fin_mul_fin (a b : K) : (fin a * fin b : Dbl K) = fin (a * b) := rfl
@[simp] theorem neg_fin (a : K) : (-(fin a) : Dbl K) = fin (-a) := rfl
@[simp] theorem fin_div_fin (a b : K) :
    (fin a / fin b : Dbl K) = if b = 0 then nan else fin (a / b) := rfl
@[simp] theorem nan_add (a : Dbl K) : (nan + a : Dbl K) = nan := by cases a <;> rfl
@[simp] theorem add_nan (a : Dbl K) : (a + nan : Dbl K) = nan := by cases a <;> rfl
@[simp] theorem nan_sub (a : Dbl K) : (nan - a : Dbl K) = nan := by cases a <;> rfl
@[simp] theorem sub_nan (a : Dbl K) : (a - nan : Dbl K) = nan := by cases a <;> rfl
@[simp] theorem nan_mul (a : Dbl K) : (nan * a : Dbl K) = nan := by cases a <;> rfl
@[simp] theorem mul_nan (a : Dbl K) : (a * nan : Dbl K) = nan := by cases a <;> rfl
@[simp] theorem nan_div (a : Dbl K) : (nan / a : Dbl K) = nan := by cases a <;> rfl
@[simp] theorem div_nan (a : Dbl K) : (a / nan : Dbl K) = nan := by cases a <;> rfl
@[simp] theorem neg_nan : (-(nan) : Dbl K) = nan := rfl
@[simp] theorem sqrt_fin (f : K → K) (a : K) :
    Dbl.sqrt f (fin a) = if a < 0 then nan else fin (f a) := rfl
@[simp] theorem sqrt_nan (f : K → K) : Dbl.sqrt f (nan : Dbl K) = nan := rfl
@[simp] theorem app_fin (f : K → K) (a : K) : Dbl.app f (fin a) = fin (f a) := rfl
@[simp] theorem app_nan (f : K → K) : Dbl.app f (nan : Dbl K) = nan := rfl
@[simp] theorem lt_fin_fin (a b : K) : Dbl.lt (fin a) (fin b) = decide (a < b) := rfl

end DblLemmas

/-! ## Re-anchoring -/

/-- C4 (code at the failing input): for the one-sample surface with height
`-15000` the first re-anchoring subtracts the initial value `-10000` of
`max_z` and leaves the height `-5000`; a second application subtracts `-5000`
and yields `0`, so applying the step twice differs from applying it once. -/
theorem reanchor_twice_differs :
    reanchor [(Vec3.ofFin 0 0 (-15000) : Vec3 ℝ)] = [Vec3.ofFin 0 0 (-5000)] ∧
    reanchor (reanchor [(Vec3.ofFin 0 0 (-15000) : Vec3 ℝ)]) = [Vec3.ofFin 0 0 0] ∧
    reanchor (reanchor [(Vec3.ofFin 0 0 (-15000) : Vec3 ℝ)]) ≠
      reanchor [(Vec3.ofFin 0 0 (-15000) : Vec3 ℝ)] := by
  refine ⟨?_, ?_, ?_⟩ <;>
    simp [reanchor, reanchorMax, Vec3.ofFin] <;> norm_num

/-- C5 (code at the failing input): for the two-sample surface with heights
`-20000` and `-30000` the value subtracted by the re-anchoring step is the
initial value `-10000` of `max_z`, not the maximum height `-20000`; after the
step the heights are `-10000` and `-20000`, so the highest point is not at 0. -/
theorem reanchor_below_sentinel :
    reanchorMax [(Vec3.ofFin 0 0 (-20000) : Vec3 ℝ), Vec3.ofFin 1 0 (-30000)] = Dbl.fin (-10000) ∧
    reanchor [(Vec3.ofFin 0 0 (-20000) : Vec3 ℝ), Vec3.ofFin 1 0 (-30000)] =
      [Vec3.ofFin 0 0 (-10000), Vec3.ofFin 1 0 (-20000)] := by
  refine ⟨?_, ?_⟩ <;>
    simp [reanchor, reanchorMax, Vec3.ofFin] <;> norm_num

/-! ## Optical frame transform -/

/-- Rotation by zero angles of a point with finite coordinates. -/
theorem rotatePoints_zero (pts : List (ℝ × ℝ × ℝ)) :
    rotatePoints Real.cos Real.sin (pts.map finPoint) (Vec3.ofFin 0 0 0) = pts.map finPoint := by
  simp [rotatePoints, PI, Vec3.ofFin, finPoint]

/-- C6: identity transform.  For every list of 3D points with finite
coordinates, `rotatePoints` with angles (0,0,0) followed by `translatePoints`
with offset (0,0,0) returns the same list: every coordinate of every point is
unchanged. -/
theorem identity_transform (pts : List (ℝ × ℝ × ℝ)) :
    translatePoints (rotatePoints Real.cos Real.sin (pts.map finPoint) (Vec3.ofFin 0 0 0))
      (Vec3.ofFin 0 0 0) = pts.map finPoint := by
  rw [rotatePoints_zero]
  simp [translatePoints, Vec3.ofFin, finPoint]

/-- C9: target plane placement.  For every list of corresponded 2D positions
`(u_i, v_i)` with finite coordinates and every finite focal length `f`, the
Target Point Set built in `main` has the length of the 2D list and its i-th
point is exactly `(u_i, v_i, -f)`, in the same order. -/
theorem buildTargets_placement (uv : List (ℝ × ℝ)) (f : ℝ) :
    buildTargets Real.cos Real.sin (uv.map fun p => (Dbl.fin p.1, Dbl.fin p.2)) (Dbl.fin f) =
      uv.map (fun p => Vec3.ofFin p.1 p.2 (-f)) ∧
    (buildTargets Real.cos Real.sin (uv.map fun p => (Dbl.fin p.1, Dbl.fin p.2))
      (Dbl.fin f)).length = uv.length := by
  have h : buildTargets Real.cos Real.sin (uv.map fun p => (Dbl.fin p.1, Dbl.fin p.2))
      (Dbl.fin f) = uv.map (fun p => Vec3.ofFin p.1 p.2 (-f)) := by
    simp [buildTargets, rotatePoints, translatePoints, PI, Vec3.ofFin]
  exact ⟨h, by rw [h, List.length_map]⟩

/-- C8: rotation order and matrices.  For all finite angles `(ax, ay, az)` in
degrees and every list of points with finite coordinates, `rotatePoints`
replaces each point `p` by `Rz(tz) * Ry(ty) * Rx(tx) * p`, where
`t = angle * PI / 180` and `Rx`, `Ry`, `Rz` are the standard right-handed
rotation matrices (x rotation applied first, z rotation last). -/
theorem rotatePoints_eq_spec (ax ay az : ℝ) (pts : List (ℝ × ℝ × ℝ)) :
    rotatePoints Real.cos Real.sin (pts.map finPoint) (Vec3.ofFin ax ay az) =
      pts.map (fun p => finPoint (specRotate Real.cos Real.sin ax ay az p)) := by
  simp only [rotatePoints, PI, Vec3.ofFin, finPoint, specRotate, List.map_map]
  apply List.map_congr_left
  rintro ⟨a, b, c⟩ _
  simp [specRx, specRy, specRz, Matrix.mul_apply, Matrix.mulVec, Matrix.dotProduct,
    Fin.sum_univ_three, Matrix.vecHead, Matrix.vecTail, finPoint, Vec3.ofFin]
  refine ⟨?_, ?_, ?_⟩ <;> ring

/-- The quarter-turn angle of the code, `90 * PI / 180`, lies within `1e-20`
below `π / 2`. -/
theorem quarter_turn_angle :
    0 < Real.pi / 2 - 90 * 3.14159265358979323846 / 180 ∧
    Real.pi / 2 - 90 * 3.14159265358979323846 / 180 < 1e-20 := by
  have h1 := Real.pi_gt_d20
  have h2 := Real.pi_lt_d20
  constructor
  · linarith
  · norm_num at h2 ⊢
    linarith

/-- C7: right-handed quarter turn.  `rotatePoints` applied to the point
(1,0,0) with angles (0,0,90) degrees, with the code's constant `PI` in the
degree-to-radian conversion, yields a point with finite coordinates, each
within 1e-9 of the coordinates of (0,1,0). -/
theorem rotate_quarter_turn :
    ∃ x y z : ℝ,
      rotatePoints Real.cos Real.sin [Vec3.ofFin 1 0 0] (Vec3.ofFin 0 0 90) = [Vec3.ofFin x y z] ∧
      |x - 0| ≤ 1e-9 ∧ |y - 1| ≤ 1e-9 ∧ |z - 0| ≤ 1e-9 := by
  obtain ⟨hpos, hlt⟩ := quarter_turn_angle
  set θ : ℝ := 90 * 3.14159265358979323846 / 180 with hθ
  set δ : ℝ := Real.pi / 2 - θ with hδ
  have hcos : Real.cos θ = Real.sin δ := by
    rw [hδ, Real.sin_pi_div_two_sub]
  have hsin : Real.sin θ = Real.cos δ := by
    rw [hδ, Real.cos_pi_div_two_sub]
  have hs0 : 0 ≤ Real.sin δ :=
    Real.sin_nonneg_of_nonneg_of_le_pi hpos.le
      (by have h3 := Real.pi_gt_three
          have h4 : δ < 1 := hlt.trans (by norm_num)
          linarith)
  have hs1 : Real.sin δ ≤ δ := Real.sin_le hpos.le
  have hc1 : Real.cos δ ≤ 1 := Real.cos_le_one δ
  have hc0 : 1 - δ ^ 2 / 2 ≤ Real.cos δ := Real.one_sub_sq_div_two_le_cos
  have hδ2 : δ ^ 2 ≤ 1e-9 := by
    have : δ ^ 2 ≤ (1e-20 : ℝ) ^ 2 := by
      exact pow_le_pow_left₀ hpos.le hlt.le 2
    refine this.trans ?_
    norm_num
  refine ⟨Real.cos θ, Real.sin θ, 0, ?_, ?_, ?_, ?_⟩
  · simp [rotatePoints, PI, Vec3.ofFin, hθ]
  · rw [sub_zero, hcos, abs_of_nonneg hs0]
    refine hs1.trans (hlt.le.trans ?_)
    norm_num
  · rw [hsin, abs_sub_comm, abs_of_nonneg (by linarith)]
    have h5 : δ ^ 2 / 2 ≤ 1e-9 := by
      refine le_trans ?_ hδ2
      have h6 : 0 ≤ δ ^ 2 := sq_nonneg δ
      linarith
    have h7 : 1 - Real.cos δ ≤ δ ^ 2 / 2 := by linarith
    exact h7.trans h5
  · norm_num

/-! ## Normalisation -/

/-- The squared length accumulated by `normalize_vec` is never negative. -/
theorem sqlen_nonneg (a b c : ℝ) : 0 ≤ a * a + b * b + c * c := by
  nlinarith [mul_self_nonneg a, mul_self_nonneg b, mul_self_nonneg c]

/-- The Euclidean length is zero only for the zero vector. -/
theorem sqrt_sqlen_eq_zero (a b c : ℝ) :
    Real.sqrt (a * a + b * b + c * c) = 0 ↔ a = 0 ∧ b = 0 ∧ c = 0 := by
  rw [Real.sqrt_eq_zero (sqlen_nonneg a b c)]
  constructor
  · intro h
    have ha := mul_self_nonneg a
    have hb := mul_self_nonneg b
    have hc := mul_self_nonneg c
    refine ⟨?_, ?_, ?_⟩ <;> apply mul_self_eq_zero.mp <;> linarith
  · rintro ⟨rfl, rfl, rfl⟩
    simp

/-- The result of `normalize_vec` on a vector with finite components: all
three components are `nan` when the length is zero, and otherwise each
component is divided by the length. -/
theorem normalize_vec_fin (a b c : ℝ) :
    normalize_vec Real.sqrt (Vec3.ofFin a b c) =
      if a = 0 ∧ b = 0 ∧ c = 0 then Vec3.nanVec
      else Vec3.ofFin (a / Real.sqrt (a * a + b * b + c * c))
        (b / Real.sqrt (a * a + b * b + c * c)) (c / Real.sqrt (a * a + b * b + c * c)) := by
  have h0 := sqlen_nonneg a b c
  have hz := sqrt_sqlen_eq_zero a b c
  by_cases h : a = 0 ∧ b = 0 ∧ c = 0
  · have hs : Real.sqrt (a * a + b * b + c * c) = 0 := hz.mpr h
    simp [normalize_vec, Vec3.ofFin, Vec3.nanVec, h, hs, not_lt.mpr h0]
  · have hs : Real.sqrt (a * a + b * b + c * c) ≠ 0 := fun e => h (hz.mp e)
    simp [normalize_vec, Vec3.ofFin, h, hs, not_lt.mpr h0]

/-- A vector of `nan` components stays so under `normalize_vec`. -/
theorem normalize_vec_nan (f : K → K) : normalize_vec f (Vec3.nanVec : Vec3 K) = Vec3.nanVec := by
  simp [normalize_vec, Vec3.nanVec]

/-- A normalised non-zero vector has magnitude 1. -/
theorem magnitude_normalized (a b c : ℝ) (h : ¬ (a = 0 ∧ b = 0 ∧ c = 0)) :
    magnitude Real.sqrt (Vec3.ofFin (a / Real.sqrt (a * a + b * b + c * c))
      (b / Real.sqrt (a * a + b * b + c * c)) (c / Real.sqrt (a * a + b * b + c * c))) =
      Dbl.fin 1 := by
  have h0 := sqlen_nonneg a b c
  have hs : Real.sqrt (a * a + b * b + c * c) ≠ 0 := fun e => h ((sqrt_sqlen_eq_zero a b c).mp e)
  have hsq : Real.sqrt (a * a + b * b + c * c) * Real.sqrt (a * a + b * b + c * c) =
      a * a + b * b + c * c := Real.mul_self_sqrt h0
  set L := Real.sqrt (a * a + b * b + c * c) with hL
  have h1 : a / L * (a / L) + b / L * (b / L) + c / L * (c / L) = 1 := by
    field_simp
    linarith
  simp [magnitude, Vec3.ofFin, h1]

/-- The form of `normalize_vec_fin` on an explicit triple of finite components. -/
theorem normalize_vec_mk (a b c : ℝ) :
    normalize_vec Real.sqrt ⟨Dbl.fin a, Dbl.fin b, Dbl.fin c⟩ =
      if a = 0 ∧ b = 0 ∧ c = 0 then ⟨Dbl.nan, Dbl.nan, Dbl.nan⟩
      else ⟨Dbl.fin (a / Real.sqrt (a * a + b * b + c * c)),
        Dbl.fin (b / Real.sqrt (a * a + b * b + c * c)),
        Dbl.fin (c / Real.sqrt (a * a + b * b + c * c))⟩ :=
  normalize_vec_fin a b c

/-- The collimated incident direction (0,0,-1) is its own normalisation. -/
theorem normalize_incident :
    normalize_vec Real.sqrt ⟨Dbl.fin 0, Dbl.fin 0, Dbl.fin (-1)⟩ =
      (⟨Dbl.fin 0, Dbl.fin 0, Dbl.fin (-1)⟩ : Vec3 ℝ) := by
  rw [normalize_vec_mk]
  norm_num

/-! ## Fresnel normal of one sample -/

/-- The loop body of `fresnelMapping` with the two flags evaluated: the
refractive branch with the collimated incident direction. -/
theorem fresnelNormal_unfold (f : K → K) (v t : Vec3 K) (n : Dbl K) :
    fresnelNormal f v t n =
      normalize_vec f
        ⟨((normalize_vec f ⟨t.x - v.x, t.y - v.y, t.z - v.z⟩).x -
            (normalize_vec f ⟨Dbl.fin 0, Dbl.fin 0, Dbl.fin (-1)⟩).x * n) * Dbl.fin (-1),
         ((normalize_vec f ⟨t.x - v.x, t.y - v.y, t.z - v.z⟩).y -
            (normalize_vec f ⟨Dbl.fin 0, Dbl.fin 0, Dbl.fin (-1)⟩).y * n) * Dbl.fin (-1),
         ((normalize_vec f ⟨t.x - v.x, t.y - v.y, t.z - v.z⟩).z -
            (normalize_vec f ⟨Dbl.fin 0, Dbl.fin 0, Dbl.fin (-1)⟩).z * n) * Dbl.fin (-1)⟩ := by
  simp [fresnelNormal, use_point_src, use_reflective_caustics]

/-- The loop body of `fresnelMapping` on finite inputs, in closed form: the
transmitted direction is normalised, and the normal is the normalisation of
`n * (0,0,-1) - transmitted`. -/
theorem fresnelNormal_fin (n : ℝ) (v t : ℝ × ℝ × ℝ) :
    fresnelNormal Real.sqrt (finPoint v) (finPoint t) (Dbl.fin n) =
      if t.1 - v.1 = 0 ∧ t.2.1 - v.2.1 = 0 ∧ t.2.2 - v.2.2 = 0 then Vec3.nanVec
      else normalize_vec Real.sqrt (Vec3.ofFin
        (-((t.1 - v.1) / Real.sqrt ((t.1 - v.1) * (t.1 - v.1) + (t.2.1 - v.2.1) * (t.2.1 - v.2.1)
          + (t.2.2 - v.2.2) * (t.2.2 - v.2.2))))
        (-((t.2.1 - v.2.1) / Real.sqrt ((t.1 - v.1) * (t.1 - v.1)
          + (t.2.1 - v.2.1) * (t.2.1 - v.2.1) + (t.2.2 - v.2.2) * (t.2.2 - v.2.2))))
        (-((t.2.2 - v.2.2) / Real.sqrt ((t.1 - v.1) * (t.1 - v.1)
          + (t.2.1 - v.2.1) * (t.2.1 - v.2.1) + (t.2.2 - v.2.2) * (t.2.2 - v.2.2))) - n)) := by
  have hT := normalize_vec_mk (t.1 - v.1) (t.2.1 - v.2.1) (t.2.2 - v.2.2)
  rw [fresnelNormal_unfold, normalize_incident]
  simp only [finPoint, Vec3.ofFin, fin_sub_fin]
  rw [hT]
  split_ifs with h
  · simp [normalize_vec, Vec3.nanVec]
  · simp only [fin_sub_fin, fin_mul_fin]
    congr 3 <;> ring

/-- Square root of a square along the optical axis. -/
theorem sqrt_axis (c : ℝ) : Real.sqrt (0 * 0 + 0 * 0 + c * c) = |c| := by
  rw [show (0 : ℝ) * 0 + 0 * 0 + c * c = c ^ 2 by ring]
  exact Real.sqrt_sq_eq_abs c

/-- On a degenerate sample the loop body of `fresnelMapping` yields the vector
with three `nan` components. -/
theorem fresnelNormal_degenerate (n : ℝ) (v t : ℝ × ℝ × ℝ) (h : Degenerate n v t) :
    fresnelNormal Real.sqrt (finPoint v) (finPoint t) (Dbl.fin n) = Vec3.nanVec := by
  rw [fresnelNormal_fin]
  split_ifs with hd
  · rfl
  · rcases h with h | ⟨hx, hy, h⟩
    · exact absurd (by rw [h]; simp) hd
    · have hx0 : t.1 - v.1 = 0 := by rw [hx]; ring
      have hy0 : t.2.1 - v.2.1 = 0 := by rw [hy]; ring
      rw [hx0, hy0, sqrt_axis, normalize_vec_fin]
      rcases h with ⟨hn, hz⟩ | ⟨hn, hz⟩
      · have hneg : t.2.2 - v.2.2 < 0 := by linarith
        rw [abs_of_neg hneg, if_pos]
        refine ⟨by simp, by simp, ?_⟩
        rw [hn, div_neg, div_self hneg.ne]
        ring
      · have hpos : 0 < t.2.2 - v.2.2 := by linarith
        rw [abs_of_pos hpos, if_pos]
        refine ⟨by simp, by simp, ?_⟩
        rw [hn, div_self hpos.ne.symm]
        ring

/-- On a non-degenerate sample the loop body of `fresnelMapping` yields a
finite vector `N`: the transmitted direction `T` is the unit vector along
`t - v`, `N` is a positive multiple of `n * (0,0,-1) - T`, and `N` has
magnitude 1. -/
theorem fresnelNormal_defined (n : ℝ) (v t : ℝ × ℝ × ℝ) (h : ¬ Degenerate n v t) :
    ∃ T N : ℝ × ℝ × ℝ, ∃ L M : ℝ,
      normalize_vec Real.sqrt (sub (finPoint t) (finPoint v)) = finPoint T ∧
      fresnelNormal Real.sqrt (finPoint v) (finPoint t) (Dbl.fin n) = finPoint N ∧
      0 < L ∧ L * T.1 = t.1 - v.1 ∧ L * T.2.1 = t.2.1 - v.2.1 ∧ L * T.2.2 = t.2.2 - v.2.2 ∧
      0 < M ∧ M * N.1 = -T.1 ∧ M * N.2.1 = -T.2.1 ∧ M * N.2.2 = -T.2.2 - n ∧
      magnitude Real.sqrt (finPoint N) = Dbl.fin 1 := by
  obtain ⟨vx, vy, vz⟩ := v
  obtain ⟨tx, ty, tz⟩ := t
  simp only [Degenerate, Prod.mk.injEq, not_or] at h
  obtain ⟨hne, hax⟩ := h
  have hd : ¬ (tx - vx = 0 ∧ ty - vy = 0 ∧ tz - vz = 0) := by
    rintro ⟨h1, h2, h3⟩
    exact hne ⟨by linarith, by linarith, by linarith⟩
  have hq := sqlen_nonneg (tx - vx) (ty - vy) (tz - vz)
  have hLsq := Real.mul_self_sqrt hq
  have hL0 : Real.sqrt ((tx - vx) * (tx - vx) + (ty - vy) * (ty - vy) + (tz - vz) * (tz - vz)) ≠ 0 :=
    fun e => hd ((sqrt_sqlen_eq_zero _ _ _).mp e)
  have hLnn := Real.sqrt_nonneg ((tx - vx) * (tx - vx) + (ty - vy) * (ty - vy) + (tz - vz) * (tz - vz))
  set L := Real.sqrt ((tx - vx) * (tx - vx) + (ty - vy) * (ty - vy) + (tz - vz) * (tz - vz)) with hL
  have hLpos : 0 < L := lt_of_le_of_ne hLnn (Ne.symm hL0)
  have hr : ¬ (-((tx - vx) / L) = 0 ∧ -((ty - vy) / L) = 0 ∧ -((tz - vz) / L) - n = 0) := by
    rintro ⟨h1, h2, h3⟩
    have hx : tx - vx = 0 := by
      have := neg_eq_zero.mp h1
      rcases div_eq_zero_iff.mp this with h | h
      · exact h
      · exact absurd h hL0
    have hy : ty - vy = 0 := by
      have := neg_eq_zero.mp h2
      rcases div_eq_zero_iff.mp this with h | h
      · exact h
      · exact absurd h hL0
    have hz : tz - vz = -n * L := by
      field_simp at h3
      linarith
    have hLz : L * L = (tz - vz) * (tz - vz) := by
      rw [hLsq, hx, hy]; ring
    have hn2 : (n - 1) * (n + 1) = 0 := by
      have h4 : L * L * ((n - 1) * (n + 1)) = 0 := by
        rw [hz] at hLz
        nlinarith
      rcases mul_eq_zero.mp h4 with h5 | h5
      · exact absurd (mul_self_eq_zero.mp h5) hL0
      · exact h5
    apply hax
    refine ⟨by linarith, by linarith, ?_⟩
    rcases mul_eq_zero.mp hn2 with h5 | h5
    · left
      refine ⟨by linarith, ?_⟩
      have : n = 1 := by linarith
      rw [this] at hz
      linarith
    · right
      refine ⟨by linarith, ?_⟩
      have : n = -1 := by linarith
      rw [this] at hz
      linarith
  have hM0 : Real.sqrt (-((tx - vx) / L) * -((tx - vx) / L) + -((ty - vy) / L) * -((ty - vy) / L)
      + (-((tz - vz) / L) - n) * (-((tz - vz) / L) - n)) ≠ 0 :=
    fun e => hr ((sqrt_sqlen_eq_zero _ _ _).mp e)
  have hMnn := Real.sqrt_nonneg (-((tx - vx) / L) * -((tx - vx) / L)
      + -((ty - vy) / L) * -((ty - vy) / L) + (-((tz - vz) / L) - n) * (-((tz - vz) / L) - n))
  set M := Real.sqrt (-((tx - vx) / L) * -((tx - vx) / L) + -((ty - vy) / L) * -((ty - vy) / L)
      + (-((tz - vz) / L) - n) * (-((tz - vz) / L) - n)) with hM
  have hMpos : 0 < M := lt_of_le_of_ne hMnn (Ne.symm hM0)
  refine ⟨((tx - vx) / L, (ty - vy) / L, (tz - vz) / L),
    (-((tx - vx) / L) / M, -((ty - vy) / L) / M, (-((tz - vz) / L) - n) / M), L, M,
    ?_, ?_, hLpos, ?_, ?_, ?_, hMpos, ?_, ?_, ?_, ?_⟩
  · simp only [sub, finPoint, Vec3.ofFin, fin_sub_fin]
    rw [normalize_vec_mk, if_neg hd]
  · rw [fresnelNormal_fin]
    simp only []
    rw [if_neg hd, normalize_vec_fin, if_neg hr]
    rfl
  · show L * ((tx - vx) / L) = tx - vx
    field_simp
  · show L * ((ty - vy) / L) = ty - vy
    field_simp
  · show L * ((tz - vz) / L) = tz - vz
    field_simp
  · show M * (-((tx - vx) / L) / M) = -((tx - vx) / L)
    exact mul_div_cancel₀ _ hM0
  · show M * (-((ty - vy) / L) / M) = -((ty - vy) / L)
    exact mul_div_cancel₀ _ hM0
  · show M * ((-((tz - vz) / L) - n) / M) = -((tz - vz) / L) - n
    exact mul_div_cancel₀ _ hM0
  · exact magnitude_normalized _ _ _ hr

/-! ## Fresnel normal field -/

/-- With at least as many targets as samples `fresnelMapping` returns, in
sample order, the loop body applied to each sample and its target. -/
theorem fresnelMapping_eq_zipWith (f : K → K) (n : Dbl K) :
    ∀ (vs ts : List (Vec3 K)), vs.length ≤ ts.length →
      fresnelMapping f vs ts n = some (List.zipWith (fun v t => fresnelNormal f v t n) vs ts)
  | [], _, _ => by simp [fresnelMapping]
  | _ :: _, [], h => by simp at h
  | v :: vs, t :: ts, h => by
    have h1 : vs.length ≤ ts.length := by simpa using h
    simp [fresnelMapping, fresnelMapping_eq_zipWith f n vs ts h1]

/-- The i-th normal returned by `fresnelMapping` on finite inputs is the loop
body applied to the i-th sample and the i-th target. -/
theorem fresnelMapping_getElem (n : ℝ) (vs ts : List (ℝ × ℝ × ℝ)) (i : ℕ) (v t : ℝ × ℝ × ℝ)
    (hlen : vs.length ≤ ts.length) (hv : vs[i]? = some v) (ht : ts[i]? = some t) :
    ∃ normals,
      fresnelMapping Real.sqrt (vs.map finPoint) (ts.map finPoint) (Dbl.fin n) = some normals ∧
      normals.length = vs.length ∧
      normals[i]? = some (fresnelNormal Real.sqrt (finPoint v) (finPoint t) (Dbl.fin n)) := by
  refine ⟨_, fresnelMapping_eq_zipWith Real.sqrt (Dbl.fin n) _ _ (by simpa using hlen), ?_, ?_⟩
  · simp [hlen]
  · rw [List.getElem?_zipWith_eq_some]
    exact ⟨finPoint v, finPoint t, by simp [hv], by simp [ht], rfl⟩

/-- The loop body of `fresnelMapping` for a target straight below the sample
at distance `d > 0` and an index `n ≠ 1`. -/
theorem fresnelNormal_axis (n d : ℝ) (s : ℝ × ℝ × ℝ) (hd : 0 < d) (hn : n ≠ 1) :
    fresnelNormal Real.sqrt (finPoint s) (finPoint (s.1, s.2.1, s.2.2 - d)) (Dbl.fin n) =
      Vec3.ofFin 0 0 (if 1 < n then -1 else 1) := by
  rw [fresnelNormal_fin]
  have hz : s.2.2 - d - s.2.2 = -d := by ring
  simp only [sub_self, hz]
  have hd0 : ¬ (True ∧ True ∧ -d = 0) := by
    rintro ⟨_, _, h⟩
    linarith
  rw [if_neg hd0, sqrt_axis, abs_neg, abs_of_pos hd, neg_div, div_self hd.ne.symm, zero_div,
    neg_zero, neg_neg, normalize_vec_fin]
  have h1n : (1 : ℝ) - n ≠ 0 := fun h => hn (by linarith)
  have hr : ¬ ((0 : ℝ) = 0 ∧ (0 : ℝ) = 0 ∧ 1 - n = 0) := fun h => h1n h.2.2
  rw [if_neg hr, sqrt_axis, zero_div]
  by_cases h : 1 < n
  · rw [if_pos h, abs_of_neg (by linarith)]
    have : (1 - n) / -(1 - n) = -1 := by
      rw [div_neg, div_self h1n]
    rw [this]
  · rw [if_neg h]
    have hlt : n < 1 := lt_of_le_of_ne (not_lt.mp h) hn
    rw [abs_of_pos (by linarith), div_self h1n]

/-- On a degenerate sample whose target differs from it, the index-weighted
incident direction equals the transmitted direction. -/
theorem degenerate_raw_zero (n : ℝ) (v t : ℝ × ℝ × ℝ) (h : Degenerate n v t) (hne : t ≠ v) :
    sub (mult (Dbl.fin n) (Vec3.ofFin 0 0 (-1)))
      (normalize_vec Real.sqrt (sub (finPoint t) (finPoint v))) = Vec3.ofFin 0 0 0 := by
  obtain ⟨vx, vy, vz⟩ := v
  obtain ⟨tx, ty, tz⟩ := t
  rcases h with h | ⟨hx, hy, h⟩
  · exact absurd h hne
  · simp only at hx hy h
    subst hx hy
    have hz : tz - vz ≠ 0 := by
      rcases h with ⟨_, h⟩ | ⟨_, h⟩
      · exact (sub_neg.mpr h).ne
      · exact (sub_pos.mpr h).ne.symm
    have hd : ¬ (tx - tx = 0 ∧ ty - ty = 0 ∧ tz - vz = 0) := fun h => hz h.2.2
    simp only [sub, finPoint, Vec3.ofFin, fin_sub_fin]
    rw [normalize_vec_mk, if_neg hd]
    have hs : Real.sqrt (0 + 0 + (tz - vz) * (tz - vz)) = |tz - vz| := by
      simpa using sqrt_axis (tz - vz)
    simp only [sub_self, zero_div, mult, fin_mul_fin, fin_sub_fin, mul_zero, hs]
    rcases h with ⟨hn, h⟩ | ⟨hn, h⟩
    · rw [abs_of_neg (sub_neg.mpr h), div_neg, div_self hz, hn]
      norm_num
    · rw [abs_of_pos (sub_pos.mpr h), div_self hz, hn]
      norm_num

/-- In exact arithmetic, when no sample is degenerate, `fresnelMapping` returns
one vector per sample and every returned vector has magnitude 1. -/
theorem unit_normals_exact (n : ℝ) (vs ts : List (ℝ × ℝ × ℝ))
    (hlen : vs.length = ts.length)
    (hnd : ∀ p ∈ vs.zip ts, ¬ Degenerate n p.1 p.2) :
    ∃ normals,
      fresnelMapping Real.sqrt (vs.map finPoint) (ts.map finPoint) (Dbl.fin n) = some normals ∧
      normals.length = vs.length ∧
      ∀ N ∈ normals, magnitude Real.sqrt N = Dbl.fin 1 := by
  refine ⟨_, fresnelMapping_eq_zipWith Real.sqrt (Dbl.fin n) _ _ (by simp [hlen]), ?_, ?_⟩
  · simp [hlen]
  · intro N hN
    rw [List.zipWith_map, ← List.map_uncurry_zip_eq_zipWith, List.mem_map] at hN
    obtain ⟨p, hp, rfl⟩ := hN
    obtain ⟨T, N, L, M, -, hN, -, -, -, -, -, -, -, -, hmag⟩ :=
      fresnelNormal_defined n p.1 p.2 (hnd p hp)
    simp only [Function.uncurry]
    rw [hN]
    exact hmag

/-- A pair in range consists of two different points. -/
theorem inRange_ne (v t : ℝ × ℝ × ℝ) (h : InRange v t) : t ≠ v := by
  rintro rfl
  have hpos : (0 : ℝ) < (1 / 2) ^ 500 := by positivity
  obtain ⟨h1 | h1 | h1, -⟩ := h <;>
  · rw [sub_self, abs_zero] at h1
    exact absurd h1 (not_le.mpr hpos)

/-- A well-conditioned sample is not degenerate. -/
theorem conditioned_not_degenerate (n : ℝ) (v t : ℝ × ℝ × ℝ) (h : Conditioned n v t) :
    ¬ Degenerate n v t := by
  obtain ⟨hr, -, hc⟩ := h
  rintro (hd | ⟨hx, hy, hd⟩)
  · exact inRange_ne v t hr hd
  · have hpos : (0 : ℝ) < (1 / 2) ^ 20 := by positivity
    have hz : 0 < |t.2.2 - v.2.2| := by
      rcases hd with ⟨-, h⟩ | ⟨-, h⟩
      · exact abs_pos.mpr (sub_neg.mpr h).ne
      · exact abs_pos.mpr (sub_pos.mpr h).ne.symm
    have hn : |n| = 1 := by
      rcases hd with ⟨h, -⟩ | ⟨h, -⟩ <;> rw [h] <;> norm_num
    have hprod := mul_pos hpos hz
    rcases hc with hc | hc | hc
    · rw [hn, sub_self, abs_zero] at hc
      linarith
    · rw [hx, hy, sub_self, sub_self, abs_zero, zero_add, zero_add] at hc
      linarith
    · rw [hx, hy, sub_self, sub_self, abs_zero, zero_add, zero_add] at hc
      linarith

/-- The transmitted direction from (0,0,0) to (3,0,-4) is (3/5, 0, -4/5). -/
theorem normalize_three_four :
    normalize_vec Real.sqrt (sub (finPoint ((3 : ℝ), (0 : ℝ), (-4 : ℝ)))
      (finPoint ((0 : ℝ), (0 : ℝ), (0 : ℝ)))) = finPoint (3 / 5, 0, -4 / 5) := by
  have h5 : Real.sqrt ((3 - 0) * (3 - 0) + (0 - 0) * (0 - 0) + (-4 - 0) * (-4 - 0)) = 5 := by
    rw [show ((3 : ℝ) - 0) * (3 - 0) + (0 - 0) * (0 - 0) + (-4 - 0) * (-4 - 0) = 5 ^ 2 by
      norm_num]
    exact Real.sqrt_sq (by norm_num)
  simp only [sub, finPoint, Vec3.ofFin, fin_sub_fin]
  rw [normalize_vec_mk, h5]
  norm_num

/-- The sample (0,0,0) with the target (3,0,-4) is well conditioned at the
refractive index 1.55. -/
theorem conditioned_three_four :
    Conditioned (1.55 : ℝ) ((0 : ℝ), (0 : ℝ), (0 : ℝ)) ((3 : ℝ), (0 : ℝ), (-4 : ℝ)) := by
  have h3 : |(3 : ℝ)| = 3 := abs_of_pos (by norm_num)
  have h4 : |(-4 : ℝ)| = 4 := by rw [abs_neg]; exact abs_of_pos (by norm_num)
  have hn : |(1.55 : ℝ)| = 1.55 := abs_of_pos (by norm_num)
  have hd : |(1.55 : ℝ) - 1| = 0.55 := by
    rw [abs_of_pos (by norm_num)]
    norm_num
  refine ⟨⟨Or.inl ?_, ?_, ?_, ?_⟩, ?_, Or.inl ?_⟩
  · simp only [sub_zero, h3]
    norm_num
  · simp only [sub_zero, h3]
    norm_num
  · simp only [sub_zero, abs_zero]
    positivity
  · simp only [sub_zero, h4]
    norm_num
  · rw [hn]
    norm_num
  · rw [hn, hd]
    norm_num

/-- C2 (counterexample): no-bending case at `n = 1`.  For the sample (1,2,3)
and the target (1,2,1) straight below it, `fresnelMapping` with refractive
index 1 returns the vector with three `nan` components, which is neither
(0,0,1) nor (0,0,-1). -/
theorem fresnel_no_bending_counterexample :
    fresnelMapping Real.sqrt [finPoint ((1 : ℝ), (2 : ℝ), (3 : ℝ))] [finPoint (1, 2, 3 - 2)]
      (Dbl.fin 1) = some [Vec3.nanVec] ∧
    (Vec3.nanVec : Vec3 ℝ) ≠ Vec3.ofFin 0 0 1 ∧
    (Vec3.nanVec : Vec3 ℝ) ≠ Vec3.ofFin 0 0 (-1) := by
  refine ⟨?_, by simp [Vec3.nanVec, Vec3.ofFin], by simp [Vec3.nanVec, Vec3.ofFin]⟩
  have h : Degenerate (1 : ℝ) (1, 2, 3) (1, 2, 3 - 2) := by
    right
    norm_num
  simp only [fresnelMapping, fresnelNormal_degenerate 1 _ _ h]

/-- C2 (amended): no-bending case at `n = 1`.  For a finite sample whose target
lies straight along the incident direction (same x and y, below the sample by
a distance between `2 ^ (-500)` and `2 ^ 500`) and the refractive index 1,
`fresnelMapping` returns for that sample the undefined vector with three `nan`
components, neither (0,0,1) nor (0,0,-1). -/
theorem fresnel_no_bending (vs ts : List (ℝ × ℝ × ℝ)) (i : ℕ) (s t : ℝ × ℝ × ℝ)
    (hlen : vs.length ≤ ts.length) (hs : vs[i]? = some s) (ht : ts[i]? = some t)
    (hx : t.1 = s.1) (hy : t.2.1 = s.2.1)
    (hlo : (1 / 2) ^ 500 ≤ s.2.2 - t.2.2) (_hhi : s.2.2 - t.2.2 ≤ 2 ^ 500) :
    ∃ normals,
      fresnelMapping Real.sqrt (vs.map finPoint) (ts.map finPoint) (Dbl.fin 1) = some normals ∧
      normals[i]? = some Vec3.nanVec ∧
      (Vec3.nanVec : Vec3 ℝ) ≠ Vec3.ofFin 0 0 1 ∧
      (Vec3.nanVec : Vec3 ℝ) ≠ Vec3.ofFin 0 0 (-1) := by
  have hpos : (0 : ℝ) < (1 / 2) ^ 500 := by positivity
  obtain ⟨normals, h1, -, h3⟩ := fresnelMapping_getElem 1 vs ts i s t hlen hs ht
  have hd : Degenerate (1 : ℝ) s t := Or.inr ⟨hx, hy, Or.inl ⟨rfl, by linarith⟩⟩
  exact ⟨normals, h1, by rw [h3, fresnelNormal_degenerate 1 s t hd],
    by simp [Vec3.nanVec, Vec3.ofFin], by simp [Vec3.nanVec, Vec3.ofFin]⟩

/-- C2 (witness): the amended no-bending case at the sample (0,0,0) and the
target (0,0,-5), five units below it. -/
theorem fresnel_no_bending_witness :
    ∃ normals,
      fresnelMapping Real.sqrt ([((0 : ℝ), (0 : ℝ), (0 : ℝ))].map finPoint)
        ([((0 : ℝ), (0 : ℝ), (-5 : ℝ))].map finPoint) (Dbl.fin 1) = some normals ∧
      normals[0]? = some Vec3.nanVec ∧
      (Vec3.nanVec : Vec3 ℝ) ≠ Vec3.ofFin 0 0 1 ∧
      (Vec3.nanVec : Vec3 ℝ) ≠ Vec3.ofFin 0 0 (-1) :=
  fresnel_no_bending [(0, 0, 0)] [(0, 0, -5)] 0 (0, 0, 0) (0, 0, -5) (by simp) rfl rfl rfl rfl
    (by norm_num) (by norm_num)

/-- C3 (counterexample): for the sample (0.5,0.5,0) that coincides with its
target, `fresnelMapping` signals no failure: it returns a normal field, whose
only normal has three `nan` components. -/
theorem fresnel_degenerate_counterexample :
    fresnelMapping Real.sqrt [finPoint ((0.5 : ℝ), (0.5 : ℝ), (0 : ℝ))] [finPoint (0.5, 0.5, 0)]
      (Dbl.fin 1.55) = some [Vec3.nanVec] ∧
    fresnelMapping Real.sqrt [finPoint ((0.5 : ℝ), (0.5 : ℝ), (0 : ℝ))] [finPoint (0.5, 0.5, 0)]
      (Dbl.fin 1.55) ≠ none := by
  have h : Degenerate (1.55 : ℝ) (0.5, 0.5, 0) (0.5, 0.5, 0) := Or.inl rfl
  have e : fresnelMapping Real.sqrt [finPoint ((0.5 : ℝ), (0.5 : ℝ), (0 : ℝ))]
      [finPoint (0.5, 0.5, 0)] (Dbl.fin 1.55) = some [Vec3.nanVec] := by
    simp only [fresnelMapping, fresnelNormal_degenerate 1.55 _ _ h]
  exact ⟨e, by rw [e]; simp⟩

/-- C3 (amended): degenerate geometry is not reported.  For every finite
refractive index and all lists of finite samples and targets with at least as
many targets as samples, `fresnelMapping` signals no failure: it returns one
normal per sample, and the normal of every sample that coincides with its
target is the undefined vector with three `nan` components. -/
theorem fresnel_degenerate_unreported (n : ℝ) (vs ts : List (ℝ × ℝ × ℝ))
    (hlen : vs.length ≤ ts.length) :
    ∃ normals,
      fresnelMapping Real.sqrt (vs.map finPoint) (ts.map finPoint) (Dbl.fin n) = some normals ∧
      normals.length = vs.length ∧
      ∀ (i : ℕ) (s : ℝ × ℝ × ℝ), vs[i]? = some s → ts[i]? = some s →
        normals[i]? = some Vec3.nanVec := by
  refine ⟨_, fresnelMapping_eq_zipWith Real.sqrt (Dbl.fin n) _ _ (by simpa using hlen), ?_, ?_⟩
  · simp [hlen]
  · intro i s hv ht
    rw [List.getElem?_zipWith_eq_some]
    exact ⟨finPoint s, finPoint s, by simp [hv], by simp [ht],
      fresnelNormal_degenerate n s s (Or.inl rfl)⟩

/-- C3 (witness): the amended statement on two samples, the second of which
coincides with its target. -/
theorem fresnel_degenerate_unreported_witness :
    ∃ normals,
      fresnelMapping Real.sqrt ([((0 : ℝ), (0 : ℝ), (0 : ℝ)), (1, 0, 0)].map finPoint)
        ([((0 : ℝ), (0 : ℝ), (-1 : ℝ)), (1, 0, 0)].map finPoint) (Dbl.fin 1.55) = some normals ∧
      normals.length = [((0 : ℝ), (0 : ℝ), (0 : ℝ)), (1, 0, 0)].length ∧
      ∀ (i : ℕ) (s : ℝ × ℝ × ℝ), [((0 : ℝ), (0 : ℝ), (0 : ℝ)), (1, 0, 0)][i]? = some s →
        [((0 : ℝ), (0 : ℝ), (-1 : ℝ)), (1, 0, 0)][i]? = some s →
        normals[i]? = some Vec3.nanVec :=
  fresnel_degenerate_unreported 1.55 [(0, 0, 0), (1, 0, 0)] [(0, 0, -1), (1, 0, 0)] (by simp)

/-- In exact arithmetic, for a sample that is not degenerate, the transmitted
direction `T` and the returned normal `N` are finite and satisfy
`n * (i x N) = T x N` with `i = (0,0,-1)`. -/
theorem snell_exact (n : ℝ) (vs ts : List (ℝ × ℝ × ℝ)) (i : ℕ) (v t : ℝ × ℝ × ℝ)
    (hlen : vs.length ≤ ts.length) (hv : vs[i]? = some v) (ht : ts[i]? = some t)
    (hnd : ¬ Degenerate n v t) :
    ∃ normals, ∃ T N : ℝ × ℝ × ℝ,
      fresnelMapping Real.sqrt (vs.map finPoint) (ts.map finPoint) (Dbl.fin n) = some normals ∧
      normals[i]? = some (finPoint N) ∧
      normalize_vec Real.sqrt (sub (finPoint t) (finPoint v)) = finPoint T ∧
      mult (Dbl.fin n) (cross (Vec3.ofFin 0 0 (-1)) (finPoint N)) =
        cross (finPoint T) (finPoint N) := by
  obtain ⟨normals, h1, -, h3⟩ := fresnelMapping_getElem n vs ts i v t hlen hv ht
  obtain ⟨T, N, L, M, hT, hN, -, -, -, -, hM, hx, hy, hz, -⟩ := fresnelNormal_defined n v t hnd
  refine ⟨normals, T, N, h1, by rw [h3, hN], hT, ?_⟩
  obtain ⟨T1, T2, T3⟩ := T
  obtain ⟨N1, N2, N3⟩ := N
  simp only at hx hy hz
  simp only [mult, cross, finPoint, Vec3.ofFin, fin_mul_fin, fin_sub_fin, Vec3.mk.injEq,
    Dbl.fin.injEq]
  refine ⟨?_, ?_, ?_⟩ <;> apply mul_left_cancel₀ hM.ne.symm
  · linear_combination (n + T3) * hy - T2 * hz
  · linear_combination T1 * hz - (n + T3) * hx
  · linear_combination T2 * hx - T1 * hy

/-- The un-normalized normal of the loop body equals `n * (0,0,-1) - T`
for every transmitted vector `T` and every index `n`, finite or not. -/
theorem raw_normal_formula (T : Vec3 ℝ) (n : Dbl ℝ) :
    (⟨(T.x - Dbl.fin 0 * n) * Dbl.fin (-1), (T.y - Dbl.fin 0 * n) * Dbl.fin (-1),
      (T.z - Dbl.fin (-1) * n) * Dbl.fin (-1)⟩ : Vec3 ℝ) =
      sub (mult n (Vec3.ofFin 0 0 (-1))) T := by
  obtain ⟨a, b, c⟩ := T
  cases a <;> cases b <;> cases c <;> cases n <;>
    simp [sub, mult, Vec3.ofFin] <;> ring

/-- The loop body of `fresnelMapping` is the refractive formula with the
collimated incident direction, on every input. -/
theorem fresnelNormal_formula (v t : Vec3 ℝ) (n : Dbl ℝ) :
    fresnelNormal Real.sqrt v t n =
      normalize_vec Real.sqrt
        (sub (mult n (Vec3.ofFin 0 0 (-1))) (normalize_vec Real.sqrt (sub t v))) := by
  rw [fresnelNormal_unfold, normalize_incident]
  simp only []
  rw [raw_normal_formula]
  rfl

/-- C11: normal-field formula and cardinality.  For every list of N samples,
every target list of at least N points and every refractive index (finite or
not), `fresnelMapping` returns exactly N vectors, in sample order, and the
i-th is `normalize_vec (n * (0,0,-1) - normalize_vec (target[i] - sample[i]))`:
the refractive formula with the collimated incident direction. -/
theorem fresnelMapping_formula (vs ts : List (Vec3 ℝ)) (n : Dbl ℝ)
    (hlen : vs.length ≤ ts.length) :
    fresnelMapping Real.sqrt vs ts n =
      some (List.zipWith (fun v t => normalize_vec Real.sqrt
        (sub (mult n (Vec3.ofFin 0 0 (-1))) (normalize_vec Real.sqrt (sub t v)))) vs ts) ∧
    (List.zipWith (fun v t => normalize_vec Real.sqrt
        (sub (mult n (Vec3.ofFin 0 0 (-1))) (normalize_vec Real.sqrt (sub t v)))) vs ts).length =
      vs.length := by
  refine ⟨?_, by simp [hlen]⟩
  rw [fresnelMapping_eq_zipWith Real.sqrt n vs ts hlen]
  congr 2
  funext v t
  exact fresnelNormal_formula v t n

/-- C11 (witness): the formula on two samples and three targets. -/
theorem fresnelMapping_formula_witness :
    fresnelMapping Real.sqrt [(Vec3.ofFin 0 0 0 : Vec3 ℝ), Vec3.ofFin 1 0 0]
        [Vec3.ofFin 0 0 (-1), Vec3.ofFin 2 0 (-1), Vec3.ofFin 5 5 5] (Dbl.fin 1.55) =
      some (List.zipWith (fun v t => normalize_vec Real.sqrt
        (sub (mult (Dbl.fin 1.55) (Vec3.ofFin 0 0 (-1))) (normalize_vec Real.sqrt (sub t v))))
        [(Vec3.ofFin 0 0 0 : Vec3 ℝ), Vec3.ofFin 1 0 0]
        [Vec3.ofFin 0 0 (-1), Vec3.ofFin 2 0 (-1), Vec3.ofFin 5 5 5]) ∧
    (List.zipWith (fun v t => normalize_vec Real.sqrt
        (sub (mult (Dbl.fin 1.55) (Vec3.ofFin 0 0 (-1))) (normalize_vec Real.sqrt (sub t v))))
        [(Vec3.ofFin 0 0 0 : Vec3 ℝ), Vec3.ofFin 1 0 0]
        [Vec3.ofFin 0 0 (-1), Vec3.ofFin 2 0 (-1), Vec3.ofFin 5 5 5]).length =
      [(Vec3.ofFin 0 0 0 : Vec3 ℝ), Vec3.ofFin 1 0 0].length :=
  fresnelMapping_formula _ _ _ (by simp)

/-- The loop body of `fresnelMapping` for a target directly below the sample
and an index above 1. -/
theorem fresnelNormal_below (n : ℝ) (s t : ℝ × ℝ × ℝ) (hn : 1 < n)
    (hx : t.1 = s.1) (hy : t.2.1 = s.2.1) (hz : t.2.2 < s.2.2) :
    fresnelNormal Real.sqrt (finPoint s) (finPoint t) (Dbl.fin n) = Vec3.ofFin 0 0 (-1) := by
  have ht : t = (s.1, s.2.1, s.2.2 - (s.2.2 - t.2.2)) := by
    obtain ⟨t1, t2, t3⟩ := t
    simp only at hx hy
    simp [hx, hy]
  rw [ht, fresnelNormal_axis n (s.2.2 - t.2.2) s (by linarith) hn.ne.symm, if_pos hn]

/-- In exact arithmetic, for an index above 1 the normal of every sample whose
target lies directly below it is (0,0,-1); when this holds for every sample
the normal field is constant. -/
theorem flat_surface_exact (n : ℝ) (vs ts : List (ℝ × ℝ × ℝ)) (hn : 1 < n)
    (hlen : vs.length ≤ ts.length) :
    ∃ normals,
      fresnelMapping Real.sqrt (vs.map finPoint) (ts.map finPoint) (Dbl.fin n) = some normals ∧
      normals.length = vs.length ∧
      (∀ (i : ℕ) (s t : ℝ × ℝ × ℝ), vs[i]? = some s → ts[i]? = some t →
        t.1 = s.1 → t.2.1 = s.2.1 → t.2.2 < s.2.2 →
        normals[i]? = some (Vec3.ofFin 0 0 (-1))) ∧
      ((∀ (i : ℕ) (s t : ℝ × ℝ × ℝ), vs[i]? = some s → ts[i]? = some t →
        t.1 = s.1 ∧ t.2.1 = s.2.1 ∧ t.2.2 < s.2.2) →
        normals = List.replicate vs.length (Vec3.ofFin 0 0 (-1))) := by
  have hper : ∀ (i : ℕ) (s t : ℝ × ℝ × ℝ), vs[i]? = some s → ts[i]? = some t →
      t.1 = s.1 → t.2.1 = s.2.1 → t.2.2 < s.2.2 →
      (List.zipWith (fun v t => fresnelNormal Real.sqrt v t (Dbl.fin n))
        (vs.map finPoint) (ts.map finPoint))[i]? = some (Vec3.ofFin 0 0 (-1)) := by
    intro i s t hs ht hx hy hz
    rw [List.getElem?_zipWith_eq_some]
    exact ⟨finPoint s, finPoint t, by simp [hs], by simp [ht], fresnelNormal_below n s t hn hx hy hz⟩
  refine ⟨_, fresnelMapping_eq_zipWith Real.sqrt (Dbl.fin n) _ _ (by simpa using hlen),
    by simp [hlen], hper, ?_⟩
  intro hall
  apply List.ext_getElem?
  intro i
  by_cases hi : i < vs.length
  · have hi2 : i < ts.length := lt_of_lt_of_le hi hlen
    have hs : vs[i]? = some vs[i] := List.getElem?_eq_getElem hi
    have ht : ts[i]? = some ts[i] := List.getElem?_eq_getElem hi2
    obtain ⟨hx, hy, hz⟩ := hall i _ _ hs ht
    rw [hper i _ _ hs ht hx hy hz]
    simp [List.getElem?_replicate, hi]
  · have h1 : (List.zipWith (fun v t => fresnelNormal Real.sqrt v t (Dbl.fin n))
        (vs.map finPoint) (ts.map finPoint)).length ≤ i := by
      simp only [List.length_zipWith, List.length_map]
      omega
    rw [List.getElem?_eq_none h1]
    simp [List.getElem?_replicate, hi]

/-- C17 (counterexample): binary64 run at refractive index 1.55, sample (0,0,0)
and the target `(0, 0, -2 ^ (-600))` directly below it, whose coordinates are
binary64 values.  The square of the
distance underflows to 0, the transmitted vector is divided by 0, and
`fresnelMapping` returns the vector with three NaN components, not
(0,0,-1). -/
theorem fresnel_flat_surface_counterexample :
    Binary64.fresnelMapping [⟨.fin 0, .fin 0, .fin 0⟩]
        [⟨.fin 0, .fin 0, .fin (-(Binary64.pow2 (-600)))⟩] (Binary64.literal 1.55)
      = some [⟨.nan, .nan, .nan⟩] ∧
    (⟨.nan, .nan, .nan⟩ : Binary64.Vec3) ≠ ⟨.fin 0, .fin 0, .fin (-1)⟩ ∧
    -(Binary64.pow2 (-600)) < 0 ∧
    Binary64.roundNearestEven (-(Binary64.pow2 (-600))) = .fin (-(Binary64.pow2 (-600))) := by
  refine ⟨?_, ?_, ?_, ?_⟩ <;> decide!

/-- C17 (amended): a flat surface needs no bending.  For every finite
refractive index `1 < n ≤ 2 ^ 500` and every finite sample whose target lies
directly below it (same x and y, lower by a distance between `2 ^ (-500)` and
`2 ^ 500`), the normal returned by `fresnelMapping` for that sample is exactly
(0,0,-1); when this holds for every sample, as for a flat surface under
identity correspondence, the normal field is constant. -/
theorem fresnel_flat_surface (n : ℝ) (vs ts : List (ℝ × ℝ × ℝ)) (hn : 1 < n)
    (_hn2 : n ≤ 2 ^ 500) (hlen : vs.length ≤ ts.length) :
    ∃ normals,
      fresnelMapping Real.sqrt (vs.map finPoint) (ts.map finPoint) (Dbl.fin n) = some normals ∧
      normals.length = vs.length ∧
      (∀ (i : ℕ) (s t : ℝ × ℝ × ℝ), vs[i]? = some s → ts[i]? = some t →
        t.1 = s.1 → t.2.1 = s.2.1 →
        (1 / 2) ^ 500 ≤ s.2.2 - t.2.2 → s.2.2 - t.2.2 ≤ 2 ^ 500 →
        normals[i]? = some (Vec3.ofFin 0 0 (-1))) ∧
      ((∀ (i : ℕ) (s t : ℝ × ℝ × ℝ), vs[i]? = some s → ts[i]? = some t →
        t.1 = s.1 ∧ t.2.1 = s.2.1 ∧
        (1 / 2) ^ 500 ≤ s.2.2 - t.2.2 ∧ s.2.2 - t.2.2 ≤ 2 ^ 500) →
        normals = List.replicate vs.length (Vec3.ofFin 0 0 (-1))) := by
  have hpos : (0 : ℝ) < (1 / 2) ^ 500 := by positivity
  obtain ⟨normals, h1, h2, h3, h4⟩ := flat_surface_exact n vs ts hn hlen
  refine ⟨normals, h1, h2, ?_, ?_⟩
  · intro i s t hs ht hx hy hlo _
    exact h3 i s t hs ht hx hy (by linarith)
  · intro hall
    apply h4
    intro i s t hs ht
    obtain ⟨hx, hy, hlo, -⟩ := hall i s t hs ht
    exact ⟨hx, hy, by linarith⟩

/-- C17 (witness): the flat surface with samples (0,0,0) and (1,0,0), targets
one unit below, refractive index 1.55. -/
theorem fresnel_flat_surface_witness :
    ∃ normals,
      fresnelMapping Real.sqrt ([((0 : ℝ), (0 : ℝ), (0 : ℝ)), (1, 0, 0)].map finPoint)
        ([((0 : ℝ), (0 : ℝ), (-1 : ℝ)), (1, 0, -1)].map finPoint) (Dbl.fin 1.55) = some normals ∧
      normals.length = [((0 : ℝ), (0 : ℝ), (0 : ℝ)), (1, 0, 0)].length ∧
      (∀ (i : ℕ) (s t : ℝ × ℝ × ℝ), [((0 : ℝ), (0 : ℝ), (0 : ℝ)), (1, 0, 0)][i]? = some s →
        [((0 : ℝ), (0 : ℝ), (-1 : ℝ)), (1, 0, -1)][i]? = some t →
        t.1 = s.1 → t.2.1 = s.2.1 →
        (1 / 2) ^ 500 ≤ s.2.2 - t.2.2 → s.2.2 - t.2.2 ≤ 2 ^ 500 →
        normals[i]? = some (Vec3.ofFin 0 0 (-1))) ∧
      ((∀ (i : ℕ) (s t : ℝ × ℝ × ℝ), [((0 : ℝ), (0 : ℝ), (0 : ℝ)), (1, 0, 0)][i]? = some s →
        [((0 : ℝ), (0 : ℝ), (-1 : ℝ)), (1, 0, -1)][i]? = some t →
        t.1 = s.1 ∧ t.2.1 = s.2.1 ∧
        (1 / 2) ^ 500 ≤ s.2.2 - t.2.2 ∧ s.2.2 - t.2.2 ≤ 2 ^ 500) →
        normals = List.replicate [((0 : ℝ), (0 : ℝ), (0 : ℝ)), (1, 0, 0)].length
          (Vec3.ofFin 0 0 (-1))) :=
  fresnel_flat_surface 1.55 [(0, 0, 0), (1, 0, 0)] [(0, 0, -1), (1, 0, -1)] (by norm_num)
    (by norm_num) (by simp)

/-- A finite result of `normalize_vec` is a unit vector. -/
theorem normalize_vec_unit (a b c : ℝ) (T : ℝ × ℝ × ℝ)
    (h : normalize_vec Real.sqrt (Vec3.ofFin a b c) = finPoint T) :
    T.1 * T.1 + T.2.1 * T.2.1 + T.2.2 * T.2.2 = 1 := by
  rw [normalize_vec_fin] at h
  split_ifs at h with h0
  · simp [Vec3.nanVec, finPoint, Vec3.ofFin] at h
  · have hq := sqlen_nonneg a b c
    have hs : Real.sqrt (a * a + b * b + c * c) ≠ 0 :=
      fun e => h0 ((sqrt_sqlen_eq_zero a b c).mp e)
    have hsq := Real.mul_self_sqrt hq
    simp only [finPoint, Vec3.ofFin, Vec3.mk.injEq, Dbl.fin.injEq] at h
    obtain ⟨h1, h2, h3⟩ := h
    rw [← h1, ← h2, ← h3]
    set L := Real.sqrt (a * a + b * b + c * c) with hL
    field_simp
    linarith

/-- In exact arithmetic, for an index above 1 and a sample that differs from
its target, the un-normalized normal is finite and non-zero with z component
at most `1 - n < 0`, and the returned normal has magnitude 1 and a strictly
negative z component. -/
theorem dense_nondegenerate_exact (n : ℝ) (vs ts : List (ℝ × ℝ × ℝ)) (i : ℕ)
    (v t : ℝ × ℝ × ℝ) (hn : 1 < n) (hlen : vs.length ≤ ts.length)
    (hv : vs[i]? = some v) (ht : ts[i]? = some t) (hne : t ≠ v) :
    ∃ normals, ∃ T R N : ℝ × ℝ × ℝ,
      fresnelMapping Real.sqrt (vs.map finPoint) (ts.map finPoint) (Dbl.fin n) = some normals ∧
      normals[i]? = some (finPoint N) ∧
      normalize_vec Real.sqrt (sub (finPoint t) (finPoint v)) = finPoint T ∧
      sub (mult (Dbl.fin n) (Vec3.ofFin 0 0 (-1))) (finPoint T) = finPoint R ∧
      R ≠ (0, 0, 0) ∧ R.2.2 ≤ 1 - n ∧ 1 - n < 0 ∧
      magnitude Real.sqrt (finPoint N) = Dbl.fin 1 ∧ N.2.2 < 0 := by
  have hnd : ¬ Degenerate n v t := by
    rintro (h | ⟨-, -, ⟨h, -⟩ | ⟨h, -⟩⟩)
    · exact hne h
    · linarith
    · linarith
  obtain ⟨normals, h1, -, h3⟩ := fresnelMapping_getElem n vs ts i v t hlen hv ht
  obtain ⟨T, N, L, M, hT, hN, -, -, -, -, hM, -, -, hz, hmag⟩ := fresnelNormal_defined n v t hnd
  have hunit : T.1 * T.1 + T.2.1 * T.2.1 + T.2.2 * T.2.2 = 1 := by
    apply normalize_vec_unit (t.1 - v.1) (t.2.1 - v.2.1) (t.2.2 - v.2.2)
    rw [← hT]
    rfl
  have hT3 : -1 ≤ T.2.2 := by
    nlinarith [mul_self_nonneg T.1, mul_self_nonneg T.2.1, mul_self_nonneg (T.2.2 + 1)]
  refine ⟨normals, T, (n * 0 - T.1, n * 0 - T.2.1, n * (-1) - T.2.2), N, h1, by rw [h3, hN],
    hT, ?_, ?_, ?_, by linarith, hmag, ?_⟩
  · simp [sub, mult, finPoint, Vec3.ofFin]
  · intro h
    have h2 : n * (-1) - T.2.2 = 0 := by
      have := congrArg (fun p : ℝ × ℝ × ℝ => p.2.2) h
      simpa using this
    linarith
  · show n * (-1) - T.2.2 ≤ 1 - n
    linarith
  · by_contra hN3
    have h5 : 0 ≤ M * N.2.2 := mul_nonneg hM.le (not_lt.mp hN3)
    linarith

/-- The square root taken by `refract` on the negated computed normal: with
`M * N = n * (0,0,-1) - T` for unit vectors `T`, `N` and `1 <= -(n * T3)`,
the cosine of the refracted angle is `-(n * N3) - M`. -/
theorem refract_cosThetaT (n T1 T2 T3 N1 N2 N3 M : ℝ) (hM : 0 < M)
    (hx : M * N1 = -T1) (hy : M * N2 = -T2) (hz : M * N3 = -T3 - n)
    (hT : T1 * T1 + T2 * T2 + T3 * T3 = 1) (hN : N1 * N1 + N2 * N2 + N3 * N3 = 1)
    (hc : 1 ≤ -(n * T3)) :
    0 ≤ 1 - n * n * (1 - N3 * N3) ∧
    Real.sqrt (1 - n * n * (1 - N3 * N3)) = -(n * N3) - M := by
  have hM2 : M * M = 1 + 2 * n * T3 + n * n := by
    have h1 : M * M * (N1 * N1 + N2 * N2 + N3 * N3) =
        (M * N1) * (M * N1) + (M * N2) * (M * N2) + (M * N3) * (M * N3) := by ring
    rw [hN, hx, hy, hz] at h1
    nlinarith
  have hy0 : 0 ≤ -(n * N3) - M := by
    have h2 : M * (-(n * N3) - M) = -(n * T3) - 1 := by
      have : M * (-(n * N3) - M) = -(n * (M * N3)) - M * M := by ring
      rw [this, hz, hM2]
      ring
    by_contra hneg
    have h3 : M * (-(n * N3) - M) < 0 := mul_neg_of_pos_of_neg hM (not_le.mp hneg)
    linarith
  have hsq : 1 - n * n * (1 - N3 * N3) = (-(n * N3) - M) ^ 2 := by
    have h4 : (-(n * N3) - M) ^ 2 = n * n * (N3 * N3) + 2 * n * (M * N3) + M * M := by ring
    rw [h4, hz, hM2]
    ring
  refine ⟨by rw [hsq]; positivity, ?_⟩
  rw [hsq]
  exact Real.sqrt_sq hy0

/-- The call `refract(-N, (0,0,-1), n, 1.0)` on the negated computed normal
returns the transmitted direction. -/
theorem refract_negated_normal (n T1 T2 T3 N1 N2 N3 M : ℝ) (hM : 0 < M)
    (hx : M * N1 = -T1) (hy : M * N2 = -T2) (hz : M * N3 = -T3 - n)
    (hT : T1 * T1 + T2 * T2 + T3 * T3 = 1) (hN : N1 * N1 + N2 * N2 + N3 * N3 = 1)
    (hc : 1 ≤ -(n * T3)) :
    refract Real.sqrt [Dbl.fin (N1 * -1), Dbl.fin (N2 * -1), Dbl.fin (N3 * -1)]
      [Dbl.fin 0, Dbl.fin 0, Dbl.fin (-1)] (Dbl.fin n) (Dbl.fin 1) =
      some [Dbl.fin T1, Dbl.fin T2, Dbl.fin T3] := by
  obtain ⟨h0, hs⟩ := refract_cosThetaT n T1 T2 T3 N1 N2 N3 M hM hx hy hz hT hN hc
  have e : 1 - n / 1 * (n / 1) * (1 - -(N1 * -1 * 0 + N2 * -1 * 0 + N3 * -1 * -1) *
      -(N1 * -1 * 0 + N2 * -1 * 0 + N3 * -1 * -1)) = 1 - n * n * (1 - N3 * N3) := by ring
  simp only [refract, fin_div_fin, one_ne_zero, if_false, fin_mul_fin, fin_add_fin, neg_fin,
    fin_sub_fin, sqrt_fin, e, not_lt.mpr h0, hs]
  simp only [Option.some.injEq, List.cons.injEq, Dbl.fin.injEq, and_true]
  refine ⟨?_, ?_, ?_⟩
  · linear_combination (-1 : ℝ) * hx
  · linear_combination (-1 : ℝ) * hy
  · linear_combination (-1 : ℝ) * hz

/-- A finite vector of magnitude 1 has squared length 1. -/
theorem sqlen_of_magnitude (N : ℝ × ℝ × ℝ) (h : magnitude Real.sqrt (finPoint N) = Dbl.fin 1) :
    N.1 * N.1 + N.2.1 * N.2.1 + N.2.2 * N.2.2 = 1 := by
  have hq := sqlen_nonneg N.1 N.2.1 N.2.2
  simp only [magnitude, finPoint, Vec3.ofFin, fin_mul_fin, fin_add_fin, sqrt_fin,
    not_lt.mpr hq, if_false, Dbl.fin.injEq] at h
  have h2 := Real.mul_self_sqrt hq
  rw [h] at h2
  linarith

/-- In exact arithmetic, for an index above 1 and a transmitted direction `T`
with `T . i >= 1/n`, `refract` applied to the negated computed normal, `i`,
`n` and `1.0` returns `T`. -/
theorem round_trip_exact (n c : ℝ) (vs ts : List (ℝ × ℝ × ℝ)) (i : ℕ) (v t T : ℝ × ℝ × ℝ)
    (hn : 1 < n) (hlen : vs.length ≤ ts.length)
    (hv : vs[i]? = some v) (ht : ts[i]? = some t)
    (hT : normalize_vec Real.sqrt (sub (finPoint t) (finPoint v)) = finPoint T)
    (hdot : dot (finPoint T) (Vec3.ofFin 0 0 (-1)) = Dbl.fin c) (hc : 1 / n ≤ c) :
    ∃ normals, ∃ N : ℝ × ℝ × ℝ,
      fresnelMapping Real.sqrt (vs.map finPoint) (ts.map finPoint) (Dbl.fin n) = some normals ∧
      normals[i]? = some (finPoint N) ∧
      refract Real.sqrt [Dbl.fin (N.1 * -1), Dbl.fin (N.2.1 * -1), Dbl.fin (N.2.2 * -1)]
        [Dbl.fin 0, Dbl.fin 0, Dbl.fin (-1)] (Dbl.fin n) (Dbl.fin 1) =
        some [Dbl.fin T.1, Dbl.fin T.2.1, Dbl.fin T.2.2] := by
  have hne : t ≠ v := by
    intro h
    rw [h] at hT
    have h0 : sub (finPoint v) (finPoint v) = (Vec3.ofFin 0 0 0 : Vec3 ℝ) := by
      simp [sub, finPoint, Vec3.ofFin]
    rw [h0, normalize_vec_fin, if_pos ⟨rfl, rfl, rfl⟩] at hT
    simp [Vec3.nanVec, finPoint, Vec3.ofFin] at hT
  have hnd : ¬ Degenerate n v t := by
    rintro (h | ⟨-, -, ⟨h, -⟩ | ⟨h, -⟩⟩)
    · exact hne h
    · linarith
    · linarith
  obtain ⟨normals, h1, -, h3⟩ := fresnelMapping_getElem n vs ts i v t hlen hv ht
  obtain ⟨T0, N, L, M, hT0, hN, -, -, -, -, hM, hx, hy, hz, hmag⟩ :=
    fresnelNormal_defined n v t hnd
  have hTT : T0 = T := by
    rw [hT] at hT0
    simp only [finPoint, Vec3.ofFin, Vec3.mk.injEq, Dbl.fin.injEq] at hT0
    exact Prod.ext hT0.1.symm (Prod.ext hT0.2.1.symm hT0.2.2.symm)
  subst hTT
  have hunit : T0.1 * T0.1 + T0.2.1 * T0.2.1 + T0.2.2 * T0.2.2 = 1 := by
    apply normalize_vec_unit (t.1 - v.1) (t.2.1 - v.2.1) (t.2.2 - v.2.2)
    rw [← hT]
    rfl
  have hNN := sqlen_of_magnitude N hmag
  have hcv : c = -T0.2.2 := by
    simp only [dot, finPoint, Vec3.ofFin, fin_mul_fin, fin_add_fin, Dbl.fin.injEq] at hdot
    linarith
  have hn0 : 0 < n := by linarith
  have hc1 : 1 ≤ -(n * T0.2.2) := by
    have h5 : 1 ≤ c * n := (div_le_iff₀ hn0).mp hc
    rw [hcv] at h5
    linarith
  exact ⟨normals, N, h1, by rw [h3, hN],
    refract_negated_normal n T0.1 T0.2.1 T0.2.2 N.1 N.2.1 N.2.2 M hM hx hy hz hunit hNN hc1⟩

/-- The running value of `maxCoeff` on finite coefficients is the running
maximum. -/
theorem maxCoeff_foldl_fin (cs : List ℝ) (c : ℝ) :
    (cs.map Dbl.fin).foldl (fun res value => if Dbl.lt res value then value else res)
      (Dbl.fin c) = Dbl.fin (cs.foldl max c) := by
  induction cs generalizing c with
  | nil => rfl
  | cons a cs ih =>
    simp only [List.map_cons, List.foldl_cons, lt_fin_fin, decide_eq_true_eq]
    by_cases h : c < a
    · rw [if_pos h, ih, max_eq_right h.le]
    · rw [if_neg h, ih, max_eq_left (not_lt.mp h)]

/-- The running maximum is a coefficient and bounds every coefficient. -/
theorem foldl_max_spec (cs : List ℝ) (c : ℝ) :
    cs.foldl max c ∈ c :: cs ∧ ∀ x ∈ c :: cs, x ≤ cs.foldl max c := by
  induction cs generalizing c with
  | nil => simp
  | cons a cs ih =>
    obtain ⟨hmem, hle⟩ := ih (max c a)
    simp only [List.foldl_cons]
    constructor
    · rcases List.mem_cons.mp hmem with h | h
      · rw [h]
        rcases max_choice c a with h2 | h2 <;> rw [h2] <;> simp
      · exact List.mem_cons_of_mem _ (List.mem_cons_of_mem _ h)
    · intro x hx
      rcases List.mem_cons.mp hx with h | h
      · rw [h]
        exact (le_max_left c a).trans (hle _ (List.mem_cons_self _ _))
      · rcases List.mem_cons.mp h with h | h
        · rw [h]
          exact (le_max_right c a).trans (hle _ (List.mem_cons_self _ _))
        · exact hle _ (List.mem_cons_of_mem _ h)

/-- C13: density normalisation before solving.  For every density matrix `d`
with at least one coefficient, all finite, and maximum `m`:
`runOptimalTransport` hands `d / m` to the solver when `m > 1` (its maximum is
then exactly 1 and every entry is at most 1), and hands `d` unchanged when
`m <= 1`. -/
theorem density_normalization {T : Type} (solve : ℕ → List (Dbl ℝ) → T) (rows cols : ℕ)
    (d : List ℝ) (hd : d ≠ []) :
    ∃ m : ℝ, m ∈ d ∧ (∀ x ∈ d, x ≤ m) ∧
      (1 < m →
        runOptimalTransport solve ⟨rows, cols, d.map Dbl.fin⟩ =
          some (solve rows ((d.map fun x => x / m).map Dbl.fin),
            ⟨rows, cols, (d.map fun x => x / m).map Dbl.fin⟩) ∧
        (1 : ℝ) ∈ d.map (fun x => x / m) ∧ ∀ y ∈ d.map (fun x => x / m), y ≤ 1) ∧
      (m ≤ 1 →
        runOptimalTransport solve ⟨rows, cols, d.map Dbl.fin⟩ =
          some (solve rows (d.map Dbl.fin), ⟨rows, cols, d.map Dbl.fin⟩)) := by
  obtain ⟨c, cs, rfl⟩ := List.exists_cons_of_ne_nil hd
  obtain ⟨hmem, hle⟩ := foldl_max_spec cs c
  have hmax : (⟨rows, cols, (c :: cs).map Dbl.fin⟩ : MatrixXd ℝ).maxCoeff =
      some (Dbl.fin (cs.foldl max c)) := by
    simp only [MatrixXd.maxCoeff, List.map_cons]
    rw [maxCoeff_foldl_fin]
  refine ⟨cs.foldl max c, hmem, hle, ?_, ?_⟩
  · intro h1
    have hm0 : cs.foldl max c ≠ 0 := by linarith
    have hpos : 0 < cs.foldl max c := by linarith
    refine ⟨?_, ?_, ?_⟩
    · simp only [runOptimalTransport, hmax, lt_fin_fin, decide_eq_true_eq, if_pos h1]
      have e : ((c :: cs).map Dbl.fin).map (fun x => x / Dbl.fin (cs.foldl max c)) =
          ((c :: cs).map fun x => x / cs.foldl max c).map Dbl.fin := by
        simp only [List.map_map]
        apply List.map_congr_left
        intro x _
        simp [hm0]
      rw [e]
    · exact List.mem_map.mpr ⟨_, hmem, div_self hm0⟩
    · intro y hy
      obtain ⟨x, hx, rfl⟩ := List.mem_map.mp hy
      exact (div_le_one hpos).mpr (hle x hx)
  · intro h1
    simp only [runOptimalTransport, hmax, lt_fin_fin, decide_eq_true_eq, if_neg (not_lt.mpr h1)]

/-- C13 (witness): the 1x2 density with coefficients 2 and 4, and a solver
that returns its arguments. -/
theorem density_normalization_witness :
    ∃ m : ℝ, m ∈ [(2 : ℝ), 4] ∧ (∀ x ∈ [(2 : ℝ), 4], x ≤ m) ∧
      (1 < m →
        runOptimalTransport (fun r v => (r, v)) ⟨1, 2, [(2 : ℝ), 4].map Dbl.fin⟩ =
          some ((1, ([(2 : ℝ), 4].map fun x => x / m).map Dbl.fin),
            ⟨1, 2, ([(2 : ℝ), 4].map fun x => x / m).map Dbl.fin⟩) ∧
        (1 : ℝ) ∈ [(2 : ℝ), 4].map (fun x => x / m) ∧
        ∀ y ∈ [(2 : ℝ), 4].map (fun x => x / m), y ≤ 1) ∧
      (m ≤ 1 →
        runOptimalTransport (fun r v => (r, v)) ⟨1, 2, [(2 : ℝ), 4].map Dbl.fin⟩ =
          some ((1, [(2 : ℝ), 4].map Dbl.fin), ⟨1, 2, [(2 : ℝ), 4].map Dbl.fin⟩)) :=
  density_normalization (fun r v => (r, v)) 1 2 [2, 4] (by simp)

/-! ## Correspondence composer -/

/-- C16: composer identity round trip.  When the source and the target
transport map are both the identity (the forward mesh equals the origin mesh,
and inverse evaluation of a map with this property leaves points unchanged),
`applyTransportMapping` leaves every point of `vertex_positions` unchanged. -/
theorem composer_identity {P Q C D : Type}
    (apply_inverse_map_mesh : TransportMap P C D → List P → ℕ → List P)
    (apply_inverse_map : TransportMap P C D → List Q → ℕ → List Q)
    (tmap_src tmap_trg : TransportMap P C D) (density_trg : D) (vertex_positions : List Q)
    (hsrc : tmap_src.fwd_mesh = tmap_src.origin_mesh)
    (htrg : tmap_trg.fwd_mesh = tmap_trg.origin_mesh)
    (hmesh : ∀ (m : TransportMap P C D) (pts : List P) (k : ℕ),
      m.fwd_mesh = m.origin_mesh → apply_inverse_map_mesh m pts k = pts)
    (hpts : ∀ (m : TransportMap P C D) (pts : List Q) (k : ℕ),
      m.fwd_mesh = m.origin_mesh → apply_inverse_map m pts k = pts) :
    applyTransportMapping apply_inverse_map_mesh apply_inverse_map tmap_src tmap_trg
      density_trg vertex_positions = vertex_positions := by
  unfold applyTransportMapping
  apply hpts
  show tmap_src.origin_mesh =
    ⟨apply_inverse_map_mesh tmap_trg tmap_src.fwd_mesh.points 3, tmap_src.fwd_mesh.connectivity⟩
  rw [hmesh tmap_trg _ 3 htrg, ← hsrc]

/-- C16 (witness): identity maps on a one-vertex mesh and an inverse
evaluation that returns its points. -/
theorem composer_identity_witness :
    applyTransportMapping (fun (_ : TransportMap ℕ Unit Unit) (pts : List ℕ) (_ : ℕ) => pts)
      (fun (_ : TransportMap ℕ Unit Unit) (pts : List (ℕ × ℕ)) (_ : ℕ) => pts)
      ⟨⟨[7], ()⟩, ⟨[7], ()⟩, ()⟩ ⟨⟨[7], ()⟩, ⟨[7], ()⟩, ()⟩ () [(1, 2), (3, 4)] =
      [(1, 2), (3, 4)] :=
  composer_identity _ _ _ _ _ _ rfl rfl (fun _ _ _ _ => rfl) (fun _ _ _ _ => rfl)

/-! ## Command line and start of `main` -/

/-- With well-formed option values `CLIopts::load` returns, and it returns
false exactly when one of the two required options is absent. -/
theorem load_cases (atof : String → Dbl ℝ) (toUint : Dbl ℝ → ℕ) (args : InputParser)
    (hwf : ∀ (o : String) (value : List String), args.getCmdOption o = some value → value ≠ []) :
    ((CLIopts.load atof toUint args).map Prod.fst = some false ∧
      (args.getCmdOption "-in_src" = none ∨ args.getCmdOption "-in_trg" = none)) ∨
    ((CLIopts.load atof toUint args).map Prod.fst = some true ∧
      args.getCmdOption "-in_src" ≠ none ∧ args.getCmdOption "-in_trg" ≠ none) := by
  rcases h1 : args.getCmdOption "-in_src" with _ | v1
  · left
    exact ⟨by simp [CLIopts.load, h1], Or.inl rfl⟩
  obtain ⟨a1, l1, rfl⟩ := List.exists_cons_of_ne_nil (hwf _ _ h1)
  rcases h2 : args.getCmdOption "-in_trg" with _ | v2
  · left
    exact ⟨by simp [CLIopts.load, h1, h2], Or.inr rfl⟩
  obtain ⟨a2, l2, rfl⟩ := List.exists_cons_of_ne_nil (hwf _ _ h2)
  right
  rcases h3 : args.getCmdOption "-res" with _ | v3 <;>
  rcases h4 : args.getCmdOption "-ptscale" with _ | v4 <;>
  rcases h5 : args.getCmdOption "-focal_l" with _ | v5
  all_goals
    first
    | obtain ⟨a3, l3, rfl⟩ := List.exists_cons_of_ne_nil (hwf _ _ h3)
    | skip
  all_goals
    first
    | obtain ⟨a4, l4, rfl⟩ := List.exists_cons_of_ne_nil (hwf _ _ h4)
    | skip
  all_goals
    first
    | obtain ⟨a5, l5, rfl⟩ := List.exists_cons_of_ne_nil (hwf _ _ h5)
    | skip
  all_goals
    exact ⟨by simp [CLIopts.load, h1, h2, h3, h4, h5], by simp, by simp⟩

/-- When the call of `opts.load` in `main` returns false, `main` returns
`EXIT_FAILURE` and has neither loaded a density nor run a transport solve. -/
theorem mainStartup_load_false (atof : String → Dbl ℝ) (toUint : Dbl ℝ → ℕ)
    (load_input_density : String → Option (MatrixXd ℝ)) (input : InputParser)
    (h : Event.opts_load false ∈ (mainStartup atof toUint load_input_density input).2) :
    (mainStartup atof toUint load_input_density input).1 = Outcome.exited EXIT_FAILURE ∧
    ∀ e ∈ (mainStartup atof toUint load_input_density input).2,
      (∀ f b, e ≠ Event.load_input_density f b) ∧ ∀ d, e ≠ Event.runOptimalTransport d := by
  unfold mainStartup at h ⊢
  split_ifs at h ⊢ with hh
  · simp at h
  · repeat' split
    all_goals simp_all

/-- C14: missing required inputs are fatal.  For every command line whose
options carry values, `CLIopts::load` returns, and it returns false if and
only if the `-in_src` option or the `-in_trg` option is absent; and when the
call of `load` in `main` returns false, `main` returns `EXIT_FAILURE` after
printing the usage, without a call of `load_input_density` and without a
call of `runOptimalTransport`. -/
theorem missing_inputs_fatal (atof : String → Dbl ℝ) (toUint : Dbl ℝ → ℕ)
    (load_input_density : String → Option (MatrixXd ℝ)) (args : InputParser)
    (hwf : ∀ (o : String) (value : List String), args.getCmdOption o = some value → value ≠ []) :
    ((CLIopts.load atof toUint args).map Prod.fst = some false ∨
      (CLIopts.load atof toUint args).map Prod.fst = some true) ∧
    ((CLIopts.load atof toUint args).map Prod.fst = some false ↔
      (args.getCmdOption "-in_src" = none ∨ args.getCmdOption "-in_trg" = none)) ∧
    (Event.opts_load false ∈ (mainStartup atof toUint load_input_density args).2 →
      (mainStartup atof toUint load_input_density args).1 = Outcome.exited EXIT_FAILURE ∧
      ∀ e ∈ (mainStartup atof toUint load_input_density args).2,
        (∀ f b, e ≠ Event.load_input_density f b) ∧ ∀ d, e ≠ Event.runOptimalTransport d) ∧
    (args.cmdOptionExists "-help" = false → args.cmdOptionExists "-h" = false →
      (CLIopts.load atof toUint args).map Prod.fst = some false →
      mainStartup atof toUint load_input_density args =
        (Outcome.exited EXIT_FAILURE, [Event.opts_load false, Event.output_usage])) := by
  refine ⟨?_, ?_, mainStartup_load_false atof toUint load_input_density args, ?_⟩
  · rcases load_cases atof toUint args hwf with ⟨h, -⟩ | ⟨h, -⟩
    · exact Or.inl h
    · exact Or.inr h
  · rcases load_cases atof toUint args hwf with ⟨h, h2⟩ | ⟨h, h2, h3⟩
    · exact ⟨fun _ => h2, fun _ => h⟩
    · constructor
      · intro h4
        rw [h] at h4
        simp at h4
      · rintro (h4 | h4)
        · exact absurd h4 h2
        · exact absurd h4 h3
  · intro hh1 hh2 hl
    rcases hL : CLIopts.load atof toUint args with _ | ⟨b, o⟩
    · rw [hL] at hl
      simp at hl
    · rw [hL] at hl
      simp only [Option.map_some', Option.some.injEq] at hl
      subst hl
      simp [mainStartup, hh1, hh2, hL]

/-- C14 (witness): the empty command line. -/
theorem missing_inputs_fatal_witness :
    ((CLIopts.load (fun _ => (Dbl.fin 0 : Dbl ℝ)) (fun _ => 0) ⟨fun _ => none, fun _ => false⟩).map
        Prod.fst = some false ∨
      (CLIopts.load (fun _ => (Dbl.fin 0 : Dbl ℝ)) (fun _ => 0) ⟨fun _ => none, fun _ => false⟩).map
        Prod.fst = some true) ∧
    ((CLIopts.load (fun _ => (Dbl.fin 0 : Dbl ℝ)) (fun _ => 0) ⟨fun _ => none, fun _ => false⟩).map
        Prod.fst = some false ↔
      ((⟨fun _ => none, fun _ => false⟩ : InputParser).getCmdOption "-in_src" = none ∨
        (⟨fun _ => none, fun _ => false⟩ : InputParser).getCmdOption "-in_trg" = none)) ∧
    (Event.opts_load false ∈ (mainStartup (fun _ => (Dbl.fin 0 : Dbl ℝ)) (fun _ => 0)
        (fun _ => none) ⟨fun _ => none, fun _ => false⟩).2 →
      (mainStartup (fun _ => (Dbl.fin 0 : Dbl ℝ)) (fun _ => 0)
        (fun _ => none) ⟨fun _ => none, fun _ => false⟩).1 = Outcome.exited EXIT_FAILURE ∧
      ∀ e ∈ (mainStartup (fun _ => (Dbl.fin 0 : Dbl ℝ)) (fun _ => 0)
        (fun _ => none) ⟨fun _ => none, fun _ => false⟩).2,
        (∀ f b, e ≠ Event.load_input_density f b) ∧ ∀ d, e ≠ Event.runOptimalTransport d) ∧
    ((⟨fun _ => none, fun _ => false⟩ : InputParser).cmdOptionExists "-help" = false →
      (⟨fun _ => none, fun _ => false⟩ : InputParser).cmdOptionExists "-h" = false →
      (CLIopts.load (fun _ => (Dbl.fin 0 : Dbl ℝ)) (fun _ => 0) ⟨fun _ => none, fun _ => false⟩).map
        Prod.fst = some false →
      mainStartup (fun _ => (Dbl.fin 0 : Dbl ℝ)) (fun _ => 0) (fun _ => none)
        ⟨fun _ => none, fun _ => false⟩ =
        (Outcome.exited EXIT_FAILURE, [Event.opts_load false, Event.output_usage])) :=
  missing_inputs_fatal (fun _ => Dbl.fin 0) (fun _ => 0) (fun _ => none)
    ⟨fun _ => none, fun _ => false⟩ (by simp)

/-- C15: an unreadable density is fatal before solving.  Whenever a call of
`load_input_density` in `main` fails, for the source or for the target
density, `main` exits with `EXIT_FAILURE` and no call of
`runOptimalTransport` has been made, for either density. -/
theorem unreadable_density_fatal (atof : String → Dbl ℝ) (toUint : Dbl ℝ → ℕ)
    (load_input_density : String → Option (MatrixXd ℝ)) (input : InputParser) (f : String)
    (h : Event.load_input_density f false ∈
      (mainStartup atof toUint load_input_density input).2) :
    (mainStartup atof toUint load_input_density input).1 = Outcome.exited EXIT_FAILURE ∧
    (∀ d, Event.runOptimalTransport d ∉ (mainStartup atof toUint load_input_density input).2) ∧
    load_input_density f = none := by
  unfold mainStartup at h ⊢
  split_ifs at h ⊢ with hh
  · simp at h
  · repeat' split
    all_goals simp_all

/-- C15 (witness): both required options given, the source density loads and
the target density does not. -/
theorem unreadable_density_fatal_witness :
    (mainStartup (fun _ => (Dbl.fin 0 : Dbl ℝ)) (fun _ => 0)
      (fun f => if f = "src.png" then some ⟨1, 1, [Dbl.fin 1]⟩ else none)
      ⟨fun o => if o = "-in_src" then some ["src.png"]
        else if o = "-in_trg" then some ["trg.png"] else none, fun _ => false⟩).1 =
      Outcome.exited EXIT_FAILURE ∧
    (∀ d, Event.runOptimalTransport d ∉
      (mainStartup (fun _ => (Dbl.fin 0 : Dbl ℝ)) (fun _ => 0)
        (fun f => if f = "src.png" then some ⟨1, 1, [Dbl.fin 1]⟩ else none)
        ⟨fun o => if o = "-in_src" then some ["src.png"]
          else if o = "-in_trg" then some ["trg.png"] else none, fun _ => false⟩).2) ∧
    (fun f => if f = "src.png" then some (⟨1, 1, [Dbl.fin 1]⟩ : MatrixXd ℝ) else none)
      "trg.png" = none :=
  unreadable_density_fatal (fun _ => Dbl.fin 0) (fun _ => 0)
    (fun f => if f = "src.png" then some ⟨1, 1, [Dbl.fin 1]⟩ else none)
    ⟨fun o => if o = "-in_src" then some ["src.png"]
      else if o = "-in_trg" then some ["trg.png"] else none, fun _ => false⟩ "trg.png"
    (by simp [mainStartup, CLIopts.load, CLIopts.set_default])

/-! ## Refinement loop -/

/-- Re-anchoring keeps the number of samples. -/
theorem reanchor_length (s : List (Vec3 K)) : (reanchor s).length = s.length := by
  simp [reanchor]

/-- One round with enough targets: it returns the value of the round function
and makes one integration call, on the re-anchored samples and the normals
computed from them. -/
theorem refinementRound_eq (sqrt : K → K)
    (integ : List (Vec3 K) → List (Vec3 K) → List (Vec3 K)) (trg : List (Vec3 K))
    (r : Dbl K) (s : List (Vec3 K)) (hlen : s.length ≤ trg.length) :
    ∃ normals, fresnelMapping sqrt (reanchor s) trg r = some normals ∧
      specRound sqrt integ trg r s = integ (reanchor s) normals ∧
      refinementRound sqrt integ trg r s =
        some (specRound sqrt integ trg r s, ⟨reanchor s, normals⟩) := by
  have h := fresnelMapping_eq_zipWith sqrt r (reanchor s) trg (by rw [reanchor_length]; exact hlen)
  exact ⟨_, h, by simp [specRound, h], by simp [refinementRound, specRound, h]⟩

/-- The rounds of the loop with enough targets and an integration that keeps
the number of samples: they end on the iterate of the round function, with one
integration call per round, in round order. -/
theorem refinementRounds_eq (sqrt : K → K)
    (integ : List (Vec3 K) → List (Vec3 K) → List (Vec3 K)) (trg : List (Vec3 K)) (r : Dbl K)
    (hint : ∀ s normals, (integ s normals).length = s.length) :
    ∀ (rounds : ℕ) (s : List (Vec3 K)), s.length ≤ trg.length →
      refinementRounds sqrt integ trg r rounds s =
        some ((specRound sqrt integ trg r)^[rounds] s,
          (List.range rounds).map fun k =>
            ⟨reanchor ((specRound sqrt integ trg r)^[k] s),
              (fresnelMapping sqrt (reanchor ((specRound sqrt integ trg r)^[k] s)) trg r).getD []⟩)
  | 0, s, _ => by simp [refinementRounds]
  | rounds + 1, s, hlen => by
    obtain ⟨normals, h1, h2, h3⟩ := refinementRound_eq sqrt integ trg r s hlen
    have hlen2 : (specRound sqrt integ trg r s).length ≤ trg.length := by
      rw [h2, hint, reanchor_length]
      exact hlen
    have ih := refinementRounds_eq sqrt integ trg r hint rounds _ hlen2
    simp only [refinementRounds, h3, ih, List.range_succ_eq_map, List.map_cons, List.map_map,
      Function.iterate_succ, Function.comp_apply, Function.iterate_zero, id_eq, h1,
      Option.getD_some]
    rfl

/-- The round function keeps the number of samples. -/
theorem specRound_iterate_length (sqrt : K → K)
    (integ : List (Vec3 K) → List (Vec3 K) → List (Vec3 K)) (trg : List (Vec3 K)) (r : Dbl K)
    (hint : ∀ s normals, (integ s normals).length = s.length) (s : List (Vec3 K)) :
    ∀ k : ℕ, ((specRound sqrt integ trg r)^[k] s).length = s.length
  | 0 => rfl
  | k + 1 => by
    rw [Function.iterate_succ_apply', specRound, hint, reanchor_length]
    exact specRound_iterate_length sqrt integ trg r hint s k

/-- C12: bounded, fixed-order refinement.  With the integration collaborator
an arbitrary function that keeps the number of samples, and at least as many
targets as samples, the refinement loop of `main` returns after exactly 10
rounds: the final surface is the 10-fold iterate of the round function
(re-anchoring, then `fresnelMapping` on the re-anchored surface with the
unchanged targets and refractive index 1.55, then integration), exactly 10
integration calls are made, the k-th on the re-anchored k-th surface and the
normals computed from it, and every `fresnelMapping` call returns. -/
theorem refinement_loop_rounds (sqrt : K → K)
    (integ : List (Vec3 K) → List (Vec3 K) → List (Vec3 K)) (trg pts : List (Vec3 K))
    (hlen : pts.length ≤ trg.length)
    (hint : ∀ s normals, (integ s normals).length = s.length) :
    refinementLoop sqrt integ trg pts =
      some ((specRound sqrt integ trg (Dbl.fin 1.55))^[10] pts,
        (List.range 10).map fun k =>
          ⟨reanchor ((specRound sqrt integ trg (Dbl.fin 1.55))^[k] pts),
            (fresnelMapping sqrt (reanchor ((specRound sqrt integ trg (Dbl.fin 1.55))^[k] pts))
              trg (Dbl.fin 1.55)).getD []⟩) ∧
    ((List.range 10).map fun k =>
      (⟨reanchor ((specRound sqrt integ trg (Dbl.fin 1.55))^[k] pts),
        (fresnelMapping sqrt (reanchor ((specRound sqrt integ trg (Dbl.fin 1.55))^[k] pts))
          trg (Dbl.fin 1.55)).getD []⟩ : IntegrationCall K)).length = 10 ∧
    ∀ k : ℕ, ∃ normals,
      fresnelMapping sqrt (reanchor ((specRound sqrt integ trg (Dbl.fin 1.55))^[k] pts))
        trg (Dbl.fin 1.55) = some normals ∧
      (specRound sqrt integ trg (Dbl.fin 1.55))^[k + 1] pts =
        integ (reanchor ((specRound sqrt integ trg (Dbl.fin 1.55))^[k] pts)) normals := by
  refine ⟨refinementRounds_eq sqrt integ trg (Dbl.fin 1.55) hint 10 pts hlen, by simp, ?_⟩
  intro k
  have hk : ((specRound sqrt integ trg (Dbl.fin 1.55))^[k] pts).length ≤ trg.length := by
    rw [specRound_iterate_length sqrt integ trg (Dbl.fin 1.55) hint pts k]
    exact hlen
  obtain ⟨normals, h1, h2, -⟩ := refinementRound_eq sqrt integ trg (Dbl.fin 1.55) _ hk
  exact ⟨normals, h1, by rw [Function.iterate_succ_apply', h2]⟩

/-- C12 (witness): one sample, one target, and an integration that leaves the
samples as they are. -/
theorem refinement_loop_rounds_witness :
    refinementLoop Real.sqrt (fun s _ => s) [Vec3.ofFin 0 0 (-1)] [(Vec3.ofFin 0 0 0 : Vec3 ℝ)] =
      some ((specRound Real.sqrt (fun s _ => s) [Vec3.ofFin 0 0 (-1)] (Dbl.fin 1.55))^[10]
          [(Vec3.ofFin 0 0 0 : Vec3 ℝ)],
        (List.range 10).map fun k =>
          ⟨reanchor ((specRound Real.sqrt (fun s _ => s) [Vec3.ofFin 0 0 (-1)]
              (Dbl.fin 1.55))^[k] [(Vec3.ofFin 0 0 0 : Vec3 ℝ)]),
            (fresnelMapping Real.sqrt (reanchor ((specRound Real.sqrt (fun s _ => s)
              [Vec3.ofFin 0 0 (-1)] (Dbl.fin 1.55))^[k] [(Vec3.ofFin 0 0 0 : Vec3 ℝ)]))
              [Vec3.ofFin 0 0 (-1)] (Dbl.fin 1.55)).getD []⟩) ∧
    ((List.range 10).map fun k =>
      (⟨reanchor ((specRound Real.sqrt (fun s _ => s) [Vec3.ofFin 0 0 (-1)]
          (Dbl.fin 1.55))^[k] [(Vec3.ofFin 0 0 0 : Vec3 ℝ)]),
        (fresnelMapping Real.sqrt (reanchor ((specRound Real.sqrt (fun s _ => s)
          [Vec3.ofFin 0 0 (-1)] (Dbl.fin 1.55))^[k] [(Vec3.ofFin 0 0 0 : Vec3 ℝ)]))
          [Vec3.ofFin 0 0 (-1)] (Dbl.fin 1.55)).getD []⟩ : IntegrationCall ℝ)).length = 10 ∧
    ∀ k : ℕ, ∃ normals,
      fresnelMapping Real.sqrt (reanchor ((specRound Real.sqrt (fun s _ => s)
        [Vec3.ofFin 0 0 (-1)] (Dbl.fin 1.55))^[k] [(Vec3.ofFin 0 0 0 : Vec3 ℝ)]))
        [Vec3.ofFin 0 0 (-1)] (Dbl.fin 1.55) = some normals ∧
      (specRound Real.sqrt (fun s _ => s) [Vec3.ofFin 0 0 (-1)] (Dbl.fin 1.55))^[k + 1]
          [(Vec3.ofFin 0 0 0 : Vec3 ℝ)] =
        (fun s _ => s) (reanchor ((specRound Real.sqrt (fun s _ => s) [Vec3.ofFin 0 0 (-1)]
          (Dbl.fin 1.55))^[k] [(Vec3.ofFin 0 0 0 : Vec3 ℝ)])) normals :=
  refinement_loop_rounds Real.sqrt (fun s _ => s) [Vec3.ofFin 0 0 (-1)] [Vec3.ofFin 0 0 0]
    (by simp) (fun _ _ => rfl)

/-- C18 (counterexample): with one sample (0,0,0), its target (0,0,-1) and an
integration collaborator that sets every height to 5, the surface handed to
export after the loop is the sample (0,0,5): its maximum height is 5, not 0,
and re-anchoring it would change it. -/
theorem export_surface_counterexample :
    (refinementLoop Real.sqrt (fun s _ => s.map fun p => ⟨p.x, p.y, Dbl.fin 5⟩)
      [Vec3.ofFin 0 0 (-1)] [(Vec3.ofFin 0 0 0 : Vec3 ℝ)]).map Prod.fst =
      some [Vec3.ofFin 0 0 5] ∧
    reanchorMax [(Vec3.ofFin 0 0 5 : Vec3 ℝ)] = Dbl.fin 5 ∧
    reanchor [(Vec3.ofFin 0 0 5 : Vec3 ℝ)] = [Vec3.ofFin 0 0 0] := by
  have hF0 : specRound Real.sqrt (fun s _ => s.map fun p => ⟨p.x, p.y, Dbl.fin 5⟩)
      [Vec3.ofFin 0 0 (-1)] (Dbl.fin 1.55) [(Vec3.ofFin 0 0 0 : Vec3 ℝ)] =
      [Vec3.ofFin 0 0 5] := by
    simp [specRound, reanchor, Vec3.ofFin]
  have hF5 : specRound Real.sqrt (fun s _ => s.map fun p => ⟨p.x, p.y, Dbl.fin 5⟩)
      [Vec3.ofFin 0 0 (-1)] (Dbl.fin 1.55) [(Vec3.ofFin 0 0 5 : Vec3 ℝ)] =
      [Vec3.ofFin 0 0 5] := by
    simp [specRound, reanchor, Vec3.ofFin]
  refine ⟨?_, ?_, ?_⟩
  · rw [refinementLoop, refinementRounds_eq Real.sqrt _ _ _ (by intro s n; simp) 10 _ (by simp)]
    simp only [Option.map_some']
    rw [Function.iterate_succ_apply, hF0, Function.iterate_fixed hF5]
  · simp [reanchorMax, Vec3.ofFin]
    norm_num
  · simp [reanchor, reanchorMax, Vec3.ofFin]
    norm_num

/-- C18 (amended): re-anchoring precedes integration.  With the integration
collaborator an arbitrary function that keeps the number of samples, and at
least as many targets as samples, every one of the 10 integration calls of the
loop is made on a re-anchored surface and the normals computed from it, and
the surface handed to export after the last round is exactly what the last
integration call returned: no re-anchoring follows it. -/
theorem export_surface_last_integration (sqrt : K → K)
    (integ : List (Vec3 K) → List (Vec3 K) → List (Vec3 K)) (trg pts : List (Vec3 K))
    (hlen : pts.length ≤ trg.length)
    (hint : ∀ s normals, (integ s normals).length = s.length) :
    ∃ final calls s9 n9,
      refinementLoop sqrt integ trg pts = some (final, calls) ∧
      calls.length = 10 ∧
      calls[9]? = some ⟨reanchor s9, n9⟩ ∧
      fresnelMapping sqrt (reanchor s9) trg (Dbl.fin 1.55) = some n9 ∧
      final = integ (reanchor s9) n9 ∧
      ∀ c ∈ calls, ∃ s, c.source_points = reanchor s ∧
        fresnelMapping sqrt (reanchor s) trg (Dbl.fin 1.55) = some c.normals := by
  have hround : ∀ k : ℕ, ∃ normals,
      fresnelMapping sqrt (reanchor ((specRound sqrt integ trg (Dbl.fin 1.55))^[k] pts))
        trg (Dbl.fin 1.55) = some normals ∧
      (specRound sqrt integ trg (Dbl.fin 1.55))^[k + 1] pts =
        integ (reanchor ((specRound sqrt integ trg (Dbl.fin 1.55))^[k] pts)) normals := by
    intro k
    have hk : ((specRound sqrt integ trg (Dbl.fin 1.55))^[k] pts).length ≤ trg.length := by
      rw [specRound_iterate_length sqrt integ trg (Dbl.fin 1.55) hint pts k]
      exact hlen
    obtain ⟨normals, h1, h2, -⟩ := refinementRound_eq sqrt integ trg (Dbl.fin 1.55) _ hk
    exact ⟨normals, h1, by rw [Function.iterate_succ_apply', h2]⟩
  obtain ⟨n9, h9, hfinal⟩ := hround 9
  refine ⟨_, _, (specRound sqrt integ trg (Dbl.fin 1.55))^[9] pts, n9,
    refinementRounds_eq sqrt integ trg (Dbl.fin 1.55) hint 10 pts hlen, by simp, ?_, h9,
    hfinal, ?_⟩
  · rw [List.getElem?_map, List.getElem?_range (by norm_num)]
    simp only [Option.map_some', h9, Option.getD_some]
  · intro c hc
    obtain ⟨k, -, rfl⟩ := List.mem_map.mp hc
    obtain ⟨nk, hk, -⟩ := hround k
    exact ⟨_, rfl, by simp [hk]⟩

/-- C18 (witness): one sample, one target, and an integration that sets every
height to 5. -/
theorem export_surface_last_integration_witness :
    ∃ final calls s9 n9,
      refinementLoop Real.sqrt (fun s _ => s.map fun p => ⟨p.x, p.y, Dbl.fin 5⟩)
        [Vec3.ofFin 0 0 (-1)] [(Vec3.ofFin 0 0 0 : Vec3 ℝ)] = some (final, calls) ∧
      calls.length = 10 ∧
      calls[9]? = some ⟨reanchor s9, n9⟩ ∧
      fresnelMapping Real.sqrt (reanchor s9) [Vec3.ofFin 0 0 (-1)] (Dbl.fin 1.55) = some n9 ∧
      final = (fun s _ => s.map fun p => ⟨p.x, p.y, Dbl.fin 5⟩) (reanchor s9) n9 ∧
      ∀ c ∈ calls, ∃ s, c.source_points = reanchor s ∧
        fresnelMapping Real.sqrt (reanchor s) [Vec3.ofFin 0 0 (-1)] (Dbl.fin 1.55) =
          some c.normals :=
  export_surface_last_integration Real.sqrt (fun s _ => s.map fun p => ⟨p.x, p.y, Dbl.fin 5⟩)
    [Vec3.ofFin 0 0 (-1)] [Vec3.ofFin 0 0 0] (by simp) (by intro s n; simp)

/-! ## Re-anchoring under the sentinel bound -/

/-- The running value of the maximum search of the re-anchoring step on finite
heights is the running maximum. -/
theorem reanchorMax_foldl_fin (pts : List (ℝ × ℝ × ℝ)) (c : ℝ) :
    (pts.map finPoint).foldl (fun max_z p => if Dbl.lt max_z p.z then p.z else max_z)
      (Dbl.fin c) = Dbl.fin ((pts.map fun p => p.2.2).foldl max c) := by
  induction pts generalizing c with
  | nil => rfl
  | cons a pts ih =>
    simp only [List.map_cons, List.foldl_cons, finPoint, Vec3.ofFin, lt_fin_fin,
      decide_eq_true_eq]
    by_cases h : c < a.2.2
    · rw [if_pos h, max_eq_right h.le]
      exact ih _
    · rw [if_neg h, max_eq_left (not_lt.mp h)]
      exact ih _

/-- When the highest sample is at or above -10000 the maximum search returns
its height. -/
theorem reanchorMax_fin (pts : List (ℝ × ℝ × ℝ)) (pm : ℝ × ℝ × ℝ) (hmem : pm ∈ pts)
    (hub : ∀ q ∈ pts, q.2.2 ≤ pm.2.2) (hs : -10000 ≤ pm.2.2) :
    reanchorMax (pts.map finPoint) = Dbl.fin pm.2.2 := by
  rw [reanchorMax, reanchorMax_foldl_fin]
  congr 1
  obtain ⟨h1, h2⟩ := foldl_max_spec (pts.map fun p => p.2.2) (-10000)
  apply le_antisymm
  · rcases List.mem_cons.mp h1 with h | h
    · rw [h]
      exact hs
    · obtain ⟨q, hq, hq2⟩ := List.mem_map.mp h
      rw [← hq2]
      exact hub q hq
  · exact h2 _ (List.mem_cons_of_mem _ (List.mem_map.mpr ⟨pm, hmem, rfl⟩))

/-- A plane rotation keeps the sum of the two squares. -/
theorem plane_rotation_sq (c s a b : ℝ) (h : s ^ 2 + c ^ 2 = 1) :
    (c * a + -s * b) * (c * a + -s * b) + (s * a + c * b) * (s * a + c * b) = a * a + b * b := by
  linear_combination (a * a + b * b) * h

/-- The three successive plane rotations of `rotatePoints` keep the squared
length of a vector. -/
theorem rotation_sqlen (cx sx cy sy cz sz x y z : ℝ) (hx : sx ^ 2 + cx ^ 2 = 1)
    (hy : sy ^ 2 + cy ^ 2 = 1) (hz : sz ^ 2 + cz ^ 2 = 1) :
    (cz * (cy * x + sy * (sx * y + cx * z)) + -sz * (cx * y + -sx * z)) *
        (cz * (cy * x + sy * (sx * y + cx * z)) + -sz * (cx * y + -sx * z)) +
      (sz * (cy * x + sy * (sx * y + cx * z)) + cz * (cx * y + -sx * z)) *
        (sz * (cy * x + sy * (sx * y + cx * z)) + cz * (cx * y + -sx * z)) +
      (-sy * x + cy * (sx * y + cx * z)) * (-sy * x + cy * (sx * y + cx * z)) =
    x * x + y * y + z * z := by
  have h1 := plane_rotation_sq cz sz (cy * x + sy * (sx * y + cx * z)) (cx * y + -sx * z) hz
  have h2 : (cy * x + sy * (sx * y + cx * z)) * (cy * x + sy * (sx * y + cx * z)) +
      (-sy * x + cy * (sx * y + cx * z)) * (-sy * x + cy * (sx * y + cx * z)) =
      x * x + (sx * y + cx * z) * (sx * y + cx * z) := by
    linear_combination (x * x + (sx * y + cx * z) * (sx * y + cx * z)) * hy
  have h3 := plane_rotation_sq cx sx y z hx
  linarith

/-- The magnitude of a vector with finite components. -/
theorem magnitude_ofFin (a b c : ℝ) :
    magnitude Real.sqrt (Vec3.ofFin a b c) = Dbl.fin (Real.sqrt (a * a + b * b + c * c)) := by
  simp [magnitude, Vec3.ofFin, not_lt.mpr (sqlen_nonneg a b c)]

/-- The result of `rotatePoints` on points with finite coordinates, written
out: the three plane rotations with the angles converted to radians. -/
theorem rotatePoints_fin (ax ay az : ℝ) (pts : List (ℝ × ℝ × ℝ)) :
    rotatePoints Real.cos Real.sin (pts.map finPoint) (Vec3.ofFin ax ay az) =
      pts.map (fun p => finPoint
        (Real.cos (az * 3.14159265358979323846 / 180) *
            (Real.cos (ay * 3.14159265358979323846 / 180) * p.1 +
              Real.sin (ay * 3.14159265358979323846 / 180) *
                (Real.sin (ax * 3.14159265358979323846 / 180) * p.2.1 +
                  Real.cos (ax * 3.14159265358979323846 / 180) * p.2.2)) +
          -Real.sin (az * 3.14159265358979323846 / 180) *
            (Real.cos (ax * 3.14159265358979323846 / 180) * p.2.1 +
              -Real.sin (ax * 3.14159265358979323846 / 180) * p.2.2),
         Real.sin (az * 3.14159265358979323846 / 180) *
            (Real.cos (ay * 3.14159265358979323846 / 180) * p.1 +
              Real.sin (ay * 3.14159265358979323846 / 180) *
                (Real.sin (ax * 3.14159265358979323846 / 180) * p.2.1 +
                  Real.cos (ax * 3.14159265358979323846 / 180) * p.2.2)) +
          Real.cos (az * 3.14159265358979323846 / 180) *
            (Real.cos (ax * 3.14159265358979323846 / 180) * p.2.1 +
              -Real.sin (ax * 3.14159265358979323846 / 180) * p.2.2),
         -Real.sin (ay * 3.14159265358979323846 / 180) * p.1 +
          Real.cos (ay * 3.14159265358979323846 / 180) *
            (Real.sin (ax * 3.14159265358979323846 / 180) * p.2.1 +
              Real.cos (ax * 3.14159265358979323846 / 180) * p.2.2))) := by
  simp only [rotatePoints, PI, Vec3.ofFin, finPoint, List.map_map]
  apply List.map_congr_left
  rintro ⟨a, b, c⟩ _
  have h180 : ¬ ((180 : ℝ) = 0) := by norm_num
  simp only [Function.comp_apply, finPoint, Vec3.ofFin, fin_mul_fin, fin_add_fin, neg_fin,
    app_fin, fin_div_fin, h180, if_false]

/-- C22: rotation is rigid.  For all finite angles in degrees, `rotatePoints`
acts on points with finite coordinates through one map `R` of the space,
point by point (so it keeps their number and their order), and `R` preserves
the Euclidean norm of every point `p` and the Euclidean distance between any
two points `p` and `q`. -/
theorem rotatePoints_rigid (ax ay az : ℝ) :
    ∃ R : ℝ × ℝ × ℝ → ℝ × ℝ × ℝ,
      (∀ pts : List (ℝ × ℝ × ℝ),
        rotatePoints Real.cos Real.sin (pts.map finPoint) (Vec3.ofFin ax ay az) =
          pts.map (fun p => finPoint (R p)) ∧
        (rotatePoints Real.cos Real.sin (pts.map finPoint) (Vec3.ofFin ax ay az)).length =
          pts.length) ∧
      (∀ p, magnitude Real.sqrt (finPoint (R p)) = magnitude Real.sqrt (finPoint p)) ∧
      (∀ p q, magnitude Real.sqrt (sub (finPoint (R p)) (finPoint (R q))) =
        magnitude Real.sqrt (sub (finPoint p) (finPoint q))) := by
  have hx := Real.sin_sq_add_cos_sq (ax * 3.14159265358979323846 / 180)
  have hy := Real.sin_sq_add_cos_sq (ay * 3.14159265358979323846 / 180)
  have hz := Real.sin_sq_add_cos_sq (az * 3.14159265358979323846 / 180)
  refine ⟨_, fun pts => ⟨rotatePoints_fin ax ay az pts,
    by rw [rotatePoints_fin ax ay az pts]; simp⟩, ?_, ?_⟩
  · rintro ⟨x, y, z⟩
    simp only [finPoint, magnitude_ofFin]
    rw [rotation_sqlen _ _ _ _ _ _ x y z hx hy hz]
  · rintro ⟨x, y, z⟩ ⟨u, v, w⟩
    simp only [finPoint, sub, Vec3.ofFin, fin_sub_fin]
    have e := magnitude_ofFin
    simp only [Vec3.ofFin] at e
    rw [e, e]
    congr 2
    rw [← rotation_sqlen _ _ _ _ _ _ (x - u) (y - v) (z - w) hx hy hz]
    ring

/-! ## Margin inset of the sampling grid -/

/-- The inset map `x * ((M - 2 * m) / M) + m` of one coordinate: its values at
0, at `M` and at the centre, its monotonicity and its range on `[0, M]`. -/
theorem inset_coordinate (M m : ℝ) (hM : 0 < M) (hm : m ≤ M / 2) :
    (0 : ℝ) * ((M - 2 * m) / M) + m = m ∧
    M * ((M - 2 * m) / M) + m = M - m ∧
    M / 2 * ((M - 2 * m) / M) + m = M / 2 ∧
    Monotone (fun x : ℝ => x * ((M - 2 * m) / M) + m) ∧
    ∀ x : ℝ, 0 ≤ x → x ≤ M →
      m ≤ x * ((M - 2 * m) / M) + m ∧ x * ((M - 2 * m) / M) + m ≤ M - m := by
  have hs : 0 ≤ (M - 2 * m) / M := div_nonneg (by linarith) hM.le
  have hMs : M * ((M - 2 * m) / M) = M - 2 * m := mul_div_cancel₀ _ hM.ne.symm
  refine ⟨by ring, by rw [hMs]; ring, ?_, ?_, ?_⟩
  · have : M / 2 * ((M - 2 * m) / M) = (M * ((M - 2 * m) / M)) / 2 := by ring
    rw [this, hMs]
    ring
  · intro x y hxy
    show x * ((M - 2 * m) / M) + m ≤ y * ((M - 2 * m) / M) + m
    have := mul_le_mul_of_nonneg_right hxy hs
    linarith
  · intro x hx0 hxM
    have h1 : 0 ≤ x * ((M - 2 * m) / M) := mul_nonneg hx0 hs
    have h2 : x * ((M - 2 * m) / M) ≤ M * ((M - 2 * m) / M) := mul_le_mul_of_nonneg_right hxM hs
    rw [hMs] at h2
    constructor <;> linarith

/-- In exact arithmetic, for unit vectors and positive indices without total
internal reflection, `refract` returns a vector with finite components whose
Euclidean norm is 1. -/
theorem refract_unit_exact (n1 n2 : ℝ) (s r : ℝ × ℝ × ℝ) (_hn1 : 0 < n1) (hn2 : 0 < n2)
    (hs : magnitude Real.sqrt (finPoint s) = Dbl.fin 1)
    (hr : magnitude Real.sqrt (finPoint r) = Dbl.fin 1)
    (htir : (n1 / n2) ^ 2 * (1 - (s.1 * r.1 + s.2.1 * r.2.1 + s.2.2 * r.2.2) ^ 2) ≤ 1) :
    ∃ a b c : ℝ,
      refract Real.sqrt [Dbl.fin s.1, Dbl.fin s.2.1, Dbl.fin s.2.2]
        [Dbl.fin r.1, Dbl.fin r.2.1, Dbl.fin r.2.2] (Dbl.fin n1) (Dbl.fin n2) =
        some [Dbl.fin a, Dbl.fin b, Dbl.fin c] ∧
      a * a + b * b + c * c = 1 ∧
      magnitude Real.sqrt (Vec3.ofFin a b c) = Dbl.fin 1 := by
  obtain ⟨s0, s1, s2⟩ := s
  obtain ⟨r0, r1, r2⟩ := r
  have hss := sqlen_of_magnitude _ hs
  have hrr := sqlen_of_magnitude _ hr
  simp only at hss hrr htir
  have hX : 0 ≤ 1 - n1 / n2 * (n1 / n2) *
      (1 - -(s0 * r0 + s1 * r1 + s2 * r2) * -(s0 * r0 + s1 * r1 + s2 * r2)) := by
    have e : n1 / n2 * (n1 / n2) *
        (1 - -(s0 * r0 + s1 * r1 + s2 * r2) * -(s0 * r0 + s1 * r1 + s2 * r2)) =
        (n1 / n2) ^ 2 * (1 - (s0 * r0 + s1 * r1 + s2 * r2) ^ 2) := by ring
    rw [e]
    linarith
  have hcT := Real.mul_self_sqrt hX
  have key : ∀ (η d cT : ℝ), cT * cT = 1 - η * η * (1 - -d * -d) →
      d = s0 * r0 + s1 * r1 + s2 * r2 →
      (η * r0 + (η * -d - cT) * s0) * (η * r0 + (η * -d - cT) * s0) +
        (η * r1 + (η * -d - cT) * s1) * (η * r1 + (η * -d - cT) * s1) +
        (η * r2 + (η * -d - cT) * s2) * (η * r2 + (η * -d - cT) * s2) = 1 := by
    intro η d cT h1 h2
    have h3 : 2 * η * (η * -d - cT) * (s0 * r0 + s1 * r1 + s2 * r2 - d) = 0 := by
      rw [h2]
      ring
    linear_combination η * η * hrr + (η * -d - cT) * (η * -d - cT) * hss + h1 + h3
  have hsum := key (n1 / n2) (s0 * r0 + s1 * r1 + s2 * r2) _ hcT rfl
  refine ⟨_, _, _, ?_, hsum, ?_⟩
  · simp only [refract, fin_div_fin, hn2.ne.symm, if_false, fin_mul_fin, fin_add_fin, neg_fin,
      fin_sub_fin, sqrt_fin, not_lt.mpr hX]
  · rw [magnitude_ofFin, hsum, Real.sqrt_one]

end Otmap
